import Mathlib

/-!
Verification of the ReST-style docstring parser (`docstring_parser/rest.py`).

Strings are modelled as `List Char`; all Python string primitives used by the
source (`str.strip`, `str.split`, `str.splitlines`, `inspect.cleandoc`,
`str.expandtabs`, and the three regular expressions) are embedded as
executable Lean functions, and `parse`, `_build_meta` and `compose` are
translated line by line from the source.
-/

/-- Character strings, modelled as lists of characters. -/
abbrev Str := List Char

/-- Python whitespace characters (the ASCII set used by `str.strip`,
`str.split` and `inspect.cleandoc` on the inputs considered here). -/
def isSpaceChar (c : Char) : Bool :=
  c == ' ' || c == '\t' || c == '\n' || c == '\r' || c == '\x0b' || c == '\x0c'

/-- Python `str.lstrip()` (no argument: strip leading whitespace). -/
def pyLstrip (s : Str) : Str := s.dropWhile isSpaceChar

/-- Python `str.rstrip()` (no argument: strip trailing whitespace). -/
def pyRstrip (s : Str) : Str := (s.reverse.dropWhile isSpaceChar).reverse

/-- Python `str.strip()` (no argument: strip whitespace on both sides). -/
def pyStrip (s : Str) : Str := pyRstrip (pyLstrip s)

/-- Python `str.lstrip(c)` for a single character `c`: drop every leading
occurrence of `c`. -/
def lstripChar (c : Char) (s : Str) : Str := s.dropWhile (· == c)

/-- Python `str.rstrip(c)` for a single character `c`: drop every trailing
occurrence of `c`. -/
def rstripChar (c : Char) (s : Str) : Str := (s.reverse.dropWhile (· == c)).reverse

/-- Python `s.split(sep, 1)` for a one-character separator: split at the
first occurrence, returning `none` when the separator does not occur. -/
def splitOnce (sep : Char) : Str → Option (Str × Str)
  | [] => none
  | c :: cs =>
    if c == sep then some ([], cs)
    else
      match splitOnce sep cs with
      | none => none
      | some (a, b) => some (c :: a, b)

/-- Helper for `splitChar`: accumulates the current field in reverse. -/
def splitCharAux (sep : Char) : Str → Str → List Str
  | [], cur => [cur.reverse]
  | c :: cs, cur =>
    if c == sep then cur.reverse :: splitCharAux sep cs []
    else splitCharAux sep cs (c :: cur)

/-- Python `s.split(sep)` for a one-character separator (keeps empty
fields; `"".split(sep) == [""]`). -/
def splitChar (sep : Char) (s : Str) : List Str := splitCharAux sep s []

/-- Python `str.splitlines()` restricted to `\n` line breaks: like
`split("\n")` except that the empty string gives `[]` and a trailing
newline does not contribute a final empty line. -/
def splitlines (s : Str) : List Str :=
  if s.isEmpty then []
  else if s.getLast? == some '\n' then (splitChar '\n' s).dropLast
  else splitChar '\n' s

/-- Helper for `pySplitWs`: accumulates the current token in reverse. -/
def pySplitWsAux : Str → Str → List Str
  | [], cur => if cur.isEmpty then [] else [cur.reverse]
  | c :: cs, cur =>
    if isSpaceChar c then
      if cur.isEmpty then pySplitWsAux cs []
      else cur.reverse :: pySplitWsAux cs []
    else pySplitWsAux cs (c :: cur)

/-- Python `s.split()` with no argument: whitespace-separated tokens,
dropping empty fields. -/
def pySplitWs (s : Str) : List Str := pySplitWsAux s []

/-- Helper for `expandtabs`: `col` is the current column modulo 8. -/
def expandtabsAux : Str → Nat → Str
  | [], _ => []
  | c :: cs, col =>
    if c == '\t' then List.replicate (8 - col % 8) ' ' ++ expandtabsAux cs 0
    else if c == '\n' || c == '\r' then c :: expandtabsAux cs 0
    else c :: expandtabsAux cs ((col + 1) % 8)

/-- Python `str.expandtabs()` with the default tab size 8. -/
def expandtabs (s : Str) : Str := expandtabsAux s 0

/-- Number of leading whitespace characters of a line holding actual
content; `none` for a line that is empty or whitespace-only (such lines do
not take part in the margin computation of `inspect.cleandoc`). -/
def lineIndent (l : Str) : Option Nat :=
  let stripped := pyLstrip l
  if stripped.isEmpty then none else some (l.length - stripped.length)

/-- The common margin of a list of lines: the minimum `lineIndent` over the
lines that have content (`none` when no line has content, standing for the
`sys.maxsize` sentinel in `inspect.cleandoc`). -/
def marginOf : List Str → Option Nat
  | [] => none
  | l :: ls =>
    match lineIndent l, marginOf ls with
    | none, m => m
    | some i, none => some i
    | some i, some m => some (Nat.min i m)

/-- The dedent step of `inspect.cleandoc`: strip leading whitespace of the
first line, drop the common margin of the remaining lines. -/
def dedentLines : List Str → List Str
  | [] => []
  | l0 :: rest =>
    pyLstrip l0 ::
      (match marginOf rest with
       | none => rest
       | some m => rest.map (List.drop m))

/-- `inspect.cleandoc`: expand tabs, dedent every line after the first by
the common margin, strip leading whitespace of the first line, and drop
leading and trailing empty lines. -/
def cleandoc (s : Str) : Str :=
  List.intercalate ['\n']
    ((((dedentLines (splitChar '\n' (expandtabs s))).reverse.dropWhile
        List.isEmpty).reverse).dropWhile List.isEmpty)

/-! ## Keyword-family configuration

Modelled from the spec: the module `common.py` supplying the keyword-family
sets is not part of the provided sources.  The spec (sections 1 and 6)
treats the mapping from keyword to family as opaque external configuration;
we use the representative keywords appearing in the spec's examples. -/

/-- Modelled from the spec: the parameter-family keyword set
(`PARAM_KEYWORDS` of the missing `common.py`). -/
def PARAM_KEYWORDS : List Str := ["param".data]

/-- Modelled from the spec: the returns-family keyword set
(`RETURNS_KEYWORDS` of the missing `common.py`). -/
def RETURNS_KEYWORDS : List Str := ["returns".data]

/-- Modelled from the spec: the yields-family keyword set
(`YIELDS_KEYWORDS` of the missing `common.py`). -/
def YIELDS_KEYWORDS : List Str := ["yields".data]

/-- Modelled from the spec: the raises-family keyword set
(`RAISES_KEYWORDS` of the missing `common.py`). -/
def RAISES_KEYWORDS : List Str := ["raises".data]

/-- Modelled from the spec: the deprecation-family keyword set
(`DEPRECATION_KEYWORDS` of the missing `common.py`). -/
def DEPRECATION_KEYWORDS : List Str := ["deprecated".data]

/-! ## Data model

Modelled from the spec (section 3) where `common.py` is missing: the record
classes `DocstringMeta`, `DocstringParam`, `DocstringReturns`,
`DocstringRaises`, `DocstringDeprecated` become one closed inductive, and
`Docstring` a structure.  The spec's "entirely empty ParsedDocument" for
empty input fixes the boolean defaults at `false`. -/

/-- The closed set of metadata-record variants (spec section 3).  All
variants carry the raw tag-line tokens `args` and the body `description`. -/
inductive DocstringMeta where
  | generic (args : List Str) (description : Str)
  | param (args : List Str) (description : Str) (arg_name : Str)
      (type_name : Option Str) (is_optional : Option Bool) (default : Option Str)
  | returns (args : List Str) (description : Str) (type_name : Option Str)
      (is_generator : Bool)
  | raises (args : List Str) (description : Str) (type_name : Option Str)
  | deprecated (args : List Str) (version : Option Str) (description : Str)
deriving DecidableEq, Repr

/-- The raw whitespace-split tag-line tokens of a record. -/
def DocstringMeta.args : DocstringMeta → List Str
  | .generic a _ => a
  | .param a _ _ _ _ _ => a
  | .returns a _ _ _ => a
  | .raises a _ _ => a
  | .deprecated a _ _ => a

/-- The body description of a record. -/
def DocstringMeta.description : DocstringMeta → Str
  | .generic _ d => d
  | .param _ d _ _ _ _ => d
  | .returns _ d _ _ => d
  | .raises _ d _ => d
  | .deprecated _ _ d => d

/-- The parsed document (spec section 3). -/
structure Docstring where
  short_description : Option Str
  long_description : Option Str
  blank_after_short_description : Bool
  blank_after_long_description : Bool
  meta : List DocstringMeta
deriving DecidableEq, Repr

/-- The document produced for empty input: no descriptions, flags unset,
no items. -/
def emptyDocstring : Docstring := ⟨none, none, false, false, []⟩

/-- The two error shapes `parse` can raise: `ParseError` with its message,
and the `IndexError` that `args[0]` raises on an empty token list. -/
inductive PyError where
  | parseError (msg : Str)
  | indexError
deriving DecidableEq, Repr

deriving instance DecidableEq for Except

/-- The three rendering styles of `compose`. -/
inductive RenderingStyle where
  | COMPACT
  | CLEAN
  | EXPANDED
deriving DecidableEq, Repr

/-! ## The regular expressions of `_build_meta` -/

/-- The pattern `"defaults to "` looked for by
`re.match(r".*defaults to (.+)", desc, flags=re.DOTALL)`. -/
def defaultsToPat : Str := "defaults to ".data

/-- Helper for `findDefault`: because the leading `.*` of the pattern is
greedy, the match uses the last occurrence of `"defaults to "` that is
followed by at least one character; scanning right-to-left is realized by
preferring the recursive result. -/
def findDefaultAux : Str → Option Str
  | [] => none
  | c :: cs =>
    match findDefaultAux cs with
    | some r => some r
    | none =>
      if defaultsToPat.isPrefixOf (c :: cs) then
        let r := (c :: cs).drop defaultsToPat.length
        if r.isEmpty then none else some r
      else none

/-- `re.match(r".*defaults to (.+)", desc, flags=re.DOTALL)`, returning
group 1: everything after the last occurrence of `"defaults to "` that has
a nonempty remainder (`.+` spans line breaks because of `DOTALL`). -/
def findDefault (desc : Str) : Option Str := findDefaultAux desc

/-- Character class `[0-9a-z\.]` under `re.I`. -/
def isVerSegChar (c : Char) : Bool := c.isDigit || c.isLower || c.isUpper || c == '.'

/-- `re.search(r"^(?P<version>v?((?:\d+)(?:\.[0-9a-z\.]+))) (?P<desc>.+)",
desc, flags=re.I)`: anchored at the start (no `re.M`), so only position 0
can match; `.+` does not cross line breaks (no `re.DOTALL`), so the `desc`
group stops at the first newline.  Returns `(version, desc)` groups. -/
def matchDeprecated (desc : Str) : Option (Str × Str) :=
  let vp : Str × Str :=
    match desc with
    | c :: cs => if c == 'v' || c == 'V' then ([c], cs) else ([], desc)
    | [] => ([], [])
  let digits := vp.2.takeWhile Char.isDigit
  let r2 := vp.2.dropWhile Char.isDigit
  if digits.isEmpty then none
  else
    match r2 with
    | c :: r3 =>
      if c == '.' then
        let seg := r3.takeWhile isVerSegChar
        let r4 := r3.dropWhile isVerSegChar
        if seg.isEmpty then none
        else
          match r4 with
          | c2 :: r5 =>
            if c2 == ' ' then
              let d := r5.takeWhile (· != '\n')
              if d.isEmpty then none
              else some (vp.1 ++ digits ++ '.' :: seg, d)
            else none
          | [] => none
      else none
    | [] => none

/-! ## `_build_meta`, `parse`, `compose` (from `rest.py`) -/

/-- Message of the `ParseError` raised on a param-family arity violation. -/
def paramArityMsg (key : Str) : Str :=
  "Expected one or two arguments for a ".data ++ key ++ " keyword.".data

/-- Message of the `ParseError` raised on a returns/yields/raises-family
arity violation. -/
def returnsArityMsg (key : Str) : Str :=
  "Expected one or no arguments for a ".data ++ key ++ " keyword.".data

/-- Message of the `ParseError` raised when a block has no second `:`
delimiter. -/
def errorNearMsg (chunk : Str) : Str :=
  "Error parsing meta information near \"".data ++ chunk ++ "\".".data

/-- `_build_meta(args, desc)`: dispatch on the keyword family of `args[0]`
(an empty `args` raises `IndexError`), with the per-family arity checks and
sub-parsing of `rest.py` lines 25-99. -/
def _build_meta (args : List Str) (desc : Str) : Except PyError DocstringMeta :=
  match args with
  | [] => .error .indexError
  | key :: restArgs =>
    if key ∈ PARAM_KEYWORDS then
      match restArgs with
      | [type_token, arg_name] =>
        let opt := type_token.getLast? == some '?'
        let type_name := if opt then type_token.dropLast else type_token
        .ok (.param args desc arg_name (some type_name) (some opt)
          ((findDefault desc).map (rstripChar '.')))
      | [arg_name] =>
        .ok (.param args desc arg_name none none
          ((findDefault desc).map (rstripChar '.')))
      | _ => .error (.parseError (paramArityMsg key))
    else if key ∈ RETURNS_KEYWORDS ++ YIELDS_KEYWORDS then
      match restArgs with
      | [type_name] =>
        .ok (.returns args desc (some type_name) (decide (key ∈ YIELDS_KEYWORDS)))
      | [] => .ok (.returns args desc none (decide (key ∈ YIELDS_KEYWORDS)))
      | _ => .error (.parseError (returnsArityMsg key))
    else if key ∈ DEPRECATION_KEYWORDS then
      match matchDeprecated desc with
      | some vd => .ok (.deprecated args (some vd.1) vd.2)
      | none => .ok (.deprecated args none desc)
    else if key ∈ RAISES_KEYWORDS then
      match restArgs with
      | [type_name] => .ok (.raises args desc (some type_name))
      | [] => .ok (.raises args desc none)
      | _ => .error (.parseError (returnsArityMsg key))
    else .ok (.generic args desc)

/-- Split `text` into the chunk before the first line-anchored `:` and the
chunk from it on (`re.search("^:", text, flags=re.M)`); `atStart` records
whether the current position begins a line. -/
def splitMeta : Str → Bool → Str × Str
  | [], _ => ([], [])
  | c :: cs, atStart =>
    if atStart && c == ':' then ([], c :: cs)
    else
      let dm := splitMeta cs (c == '\n')
      (c :: dm.1, dm.2)

/-- The chunk of `text` before the first line-anchored `:` , as computed by
`parse` (after `cleandoc`). -/
def preambleOf (text : Str) : Str := (splitMeta (cleandoc text) true).1

/-- The chunk of `text` from the first line-anchored `:` on, as computed by
`parse` (after `cleandoc`). -/
def metaChunkOf (text : Str) : Str := (splitMeta (cleandoc text) true).2

/-- Helper for `splitBlocks`: walk the text, closing the accumulated block
whenever a `:` occurs at the start of a line. -/
def splitBlocksAux : Str → Bool → Str → List Str
  | [], _, acc => [acc.reverse]
  | c :: cs, atStart, acc =>
    if atStart && c == ':' then acc.reverse :: splitBlocksAux cs false [c]
    else splitBlocksAux cs (c == '\n') (c :: acc)

/-- `re.finditer(r"(^:.*?)(?=^:|\Z)", meta_chunk, flags=re.S | re.M)`: the
maximal chunks starting at a line-anchored `:` and running up to the next
line-anchored `:` or the end; text before the first such `:` matches no
block and is dropped. -/
def splitBlocks (s : Str) : List Str :=
  match splitBlocksAux s true [] with
  | [] => []
  | _ :: blocks => blocks

/-- Per-block processing of `parse` (lines 131-144): strip leading colons,
split on the next `:` into tag tokens and body (`none` on the `ValueError`
turned into a `ParseError`), strip the body, and `cleandoc` every body line
after the first. -/
def parseChunk (chunk : Str) : Option (List Str × Str) :=
  match splitOnce ':' (lstripChar ':' chunk) with
  | none => none
  | some (args_chunk, desc_chunk) =>
    some (pySplitWs args_chunk,
      match splitOnce '\n' (pyStrip desc_chunk) with
      | none => pyStrip desc_chunk
      | some (first_line, rest) => first_line ++ '\n' :: cleandoc rest)

/-- The `for match in re.finditer(...)` loop of `parse`: build a record per
block, stopping at the first error. -/
def processBlocks : List Str → Except PyError (List DocstringMeta)
  | [] => .ok []
  | b :: bs =>
    if b.isEmpty then processBlocks bs
    else
      match parseChunk b with
      | none => .error (.parseError (errorNearMsg b))
      | some ad =>
        match _build_meta ad.1 ad.2 with
        | .error e => .error e
        | .ok m =>
          match processBlocks bs with
          | .error e => .error e
          | .ok ms => .ok (m :: ms)

/-- Python `s or None` for the optional description fields. -/
def strOrNone (s : Str) : Option Str := if s.isEmpty then none else some s

/-- `long_desc_chunk.startswith("\n")`. -/
def startsWithNL : Str → Bool
  | '\n' :: _ => true
  | _ => false

/-- `long_desc_chunk.endswith("\n\n")`. -/
def endsWithNN (s : Str) : Bool :=
  match s.reverse with
  | '\n' :: '\n' :: _ => true
  | _ => false

/-- `parse(text)`: `rest.py` lines 102-148. -/
def parse (text : Str) : Except PyError Docstring :=
  if text.isEmpty then .ok emptyDocstring
  else
    let base : Docstring :=
      match splitOnce '\n' (preambleOf text) with
      | none =>
        { emptyDocstring with short_description := strOrNone (preambleOf text) }
      | some (first, rest) =>
        { short_description := strOrNone first
          long_description := strOrNone (pyStrip rest)
          blank_after_short_description := startsWithNL rest
          blank_after_long_description := endsWithNN rest
          meta := [] }
    match processBlocks (splitBlocks (metaChunkOf text)) with
    | .error e => .error e
    | .ok ms => .ok { base with meta := ms }

/-- The `process_desc` closure of `compose`. -/
def process_desc (rendering_style : RenderingStyle) (indent : Str) (desc : Str) : Str :=
  if desc.isEmpty then []
  else
    match rendering_style with
    | .CLEAN =>
      match splitlines desc with
      | [] => []
      | first :: rest =>
        List.intercalate ['\n'] ((' ' :: first) :: rest.map (indent ++ ·))
    | .EXPANDED =>
      match splitlines desc with
      | [] => []
      | first :: rest =>
        List.intercalate ['\n'] (('\n' :: (indent ++ first)) :: rest.map (indent ++ ·))
    | .COMPACT => ' ' :: desc

/-- Python truthiness of an optional string (`None` and `""` are falsy). -/
def truthyS : Option Str → Bool
  | none => false
  | some s => !s.isEmpty

/-- The line (or lines) emitted by `compose` for one record. -/
def metaText (rendering_style : RenderingStyle) (indent : Str) : DocstringMeta → Str
  | .param _ description arg_name type_name is_optional _ =>
    let type_text : Str :=
      if truthyS type_name then
        if is_optional.getD false then
          ' ' :: (type_name.getD [] ++ "? ".data)
        else ' ' :: (type_name.getD [] ++ [' '])
      else [' ']
    ':' :: "param".data ++ type_text ++ arg_name ++ [':']
      ++ process_desc rendering_style indent description
  | .returns _ description type_name is_generator =>
    let type_text : Str :=
      if truthyS type_name then ' ' :: (type_name.getD [] ++ [' ']) else []
    let key : Str := if is_generator then "yields".data else "returns".data
    ':' :: key ++ type_text ++ [':'] ++ process_desc rendering_style indent description
  | .raises _ description type_name =>
    let type_text : Str :=
      if truthyS type_name then ' ' :: (type_name.getD [] ++ [' ']) else []
    ':' :: "raises".data ++ type_text ++ [':']
      ++ process_desc rendering_style indent description
  | .generic args description =>
    ':' :: List.intercalate [' '] args ++ [':']
      ++ process_desc rendering_style indent description
  | .deprecated args _ description =>
    ':' :: List.intercalate [' '] args ++ [':']
      ++ process_desc rendering_style indent description

/-- `compose(docstring, rendering_style, indent)`: `rest.py` lines 151-216
(the `isinstance` dispatch is `metaText`; `DocstringDeprecated` records take
the generic `meta.args`-joining branch). -/
def compose (docstring : Docstring) (rendering_style : RenderingStyle)
    (indent : Str) : Str :=
  let parts : List Str :=
    (if truthyS docstring.short_description then [docstring.short_description.getD []] else [])
    ++ (if docstring.blank_after_short_description then [([] : Str)] else [])
    ++ (if truthyS docstring.long_description then [docstring.long_description.getD []] else [])
    ++ (if docstring.blank_after_long_description then [([] : Str)] else [])
    ++ docstring.meta.map (metaText rendering_style indent)
  List.intercalate ['\n'] parts

/-! ## Derived notions used by the theorems -/

/-- Whether `pat` occurs as a contiguous substring of `s`. -/
def hasSub (pat : Str) : Str → Bool
  | [] => pat.isEmpty
  | c :: cs => pat.isPrefixOf (c :: cs) || hasSub pat cs

/-- Whether an `Except` result is a success. -/
def exceptIsOk {α : Type} : Except PyError α → Bool
  | .ok _ => true
  | .error _ => false

/-- Whether a token list violates the arity rules of its keyword family
(spec section 4.2): param family needs 2 or 3 tokens, returns/yields and
raises families need 1 or 2. -/
def arityBad (args : List Str) : Bool :=
  match args with
  | [] => false
  | key :: restArgs =>
    if key ∈ PARAM_KEYWORDS then
      match restArgs with
      | [_, _] => false
      | [_] => false
      | _ => true
    else if key ∈ RETURNS_KEYWORDS ++ YIELDS_KEYWORDS then
      match restArgs with
      | [_] => false
      | [] => false
      | _ => true
    else if key ∈ DEPRECATION_KEYWORDS then false
    else if key ∈ RAISES_KEYWORDS then
      match restArgs with
      | [_] => false
      | [] => false
      | _ => true
    else false

/-- Whether a block makes `parse` raise a `ParseError`: either it has no
second `:` delimiter, or its token list violates the family arity. -/
def blockBad (b : Str) : Bool :=
  match parseChunk b with
  | none => true
  | some ad => arityBad ad.1

/-- Whether a block splits into an empty token list (`args[0]` then raises
`IndexError` rather than `ParseError`). -/
def blockEmptyArgs (b : Str) : Bool :=
  match parseChunk b with
  | none => false
  | some ad => ad.1.isEmpty

/-! ## Well-formed documents and the reparse normal form (claims C1 and C2)

`compose` rebuilds each tag line from the structured fields, so a
round-trip can only restore the stored `args` for documents whose fields
are consistent with their tokens and whose text fields survive the
whitespace normalization of `parse` — `wfDoc` below captures such
documents (single-line descriptions, no line-anchored `:` inside text
fields, a present short description).  `normDoc` is the exact document that
re-parsing the composition produces: everything is preserved except that a
param `default` is re-extracted and a deprecated `version` is dropped. -/

/-- A character allowed inside a whitespace-split token reproduced by
`compose`: not whitespace and not the `:` delimiter. -/
def tokenChar (c : Char) : Bool := !isSpaceChar c && c != ':'

/-- A token reproduced verbatim by a compose/parse round trip. -/
def tokenOk (t : Str) : Bool := !t.isEmpty && t.all tokenChar

/-- A character allowed in a single-line description: anything except a
line break, tab, or other exotic whitespace. -/
def descChar (c : Char) : Bool :=
  c != '\n' && c != '\t' && c != '\r' && c != '\x0b' && c != '\x0c'

/-- A single-line description that survives `strip` and the block scan:
no line break, no leading whitespace or `:` , no trailing whitespace. -/
def simpleDesc (d : Str) : Bool :=
  d.all descChar
  && d.head?.all (fun c => !isSpaceChar c && c != ':')
  && d.getLast?.all (fun c => !isSpaceChar c)

/-- No `:` at a line start inside `s`, where `atStart` says whether `s`
begins at a line start (the block scan of `parse` would split there). -/
def okPre : Str → Bool → Bool
  | [], _ => true
  | c :: cs, atStart => !(atStart && c == ':') && okPre cs (c == '\n')

/-- Whether the position just after `s` is at a line start, given that `s`
itself begins at a line start iff `b`. -/
def flagAfter : Str → Bool → Bool
  | [], b => b
  | c :: cs, _ => flagAfter cs (c == '\n')

/-- A well-formed short description: nonempty, single-line, not starting
with whitespace or `:`. -/
def shortOk (s : Str) : Bool :=
  !s.isEmpty && s.all descChar && s.head?.all (fun c => !isSpaceChar c && c != ':')

/-- A character allowed in a long description (line breaks allowed). -/
def longChar (c : Char) : Bool :=
  c != '\t' && c != '\r' && c != '\x0b' && c != '\x0c'

/-- A well-formed long description: nonempty, no tabs, no line starting
with `:` , first and last characters not whitespace. -/
def longOk (l : Str) : Bool :=
  !l.isEmpty && l.all longChar && okPre l true
  && l.head?.all (fun c => !isSpaceChar c)
  && l.getLast?.all (fun c => !isSpaceChar c)

/-- A keyword belonging to none of the configured families. -/
def unrecognizedKw (k : Str) : Bool :=
  decide (k ∉ PARAM_KEYWORDS) && decide (k ∉ RETURNS_KEYWORDS ++ YIELDS_KEYWORDS)
  && decide (k ∉ DEPRECATION_KEYWORDS) && decide (k ∉ RAISES_KEYWORDS)

/-- Record-level well-formedness: tokens consistent with the structured
fields (as `parse` itself constructs them), single-line stable
descriptions, and a deprecated description that does not re-match the
version pattern (the version would otherwise be re-extracted from the
description on a round trip). -/
def metaOk : DocstringMeta → Bool
  | .generic args desc =>
    !args.isEmpty && args.all tokenOk && args.head?.all unrecognizedKw
      && simpleDesc desc
  | .param args desc arg_name type_name is_optional _ =>
    simpleDesc desc && tokenOk arg_name &&
    (match type_name, is_optional with
     | some tn, some true =>
       tokenOk tn && decide (args = ["param".data, tn ++ ['?'], arg_name])
     | some tn, some false =>
       tokenOk tn && tn.getLast? != some '?'
         && decide (args = ["param".data, tn, arg_name])
     | none, none => decide (args = ["param".data, arg_name])
     | _, _ => false)
  | .returns args desc type_name is_generator =>
    simpleDesc desc &&
    (match type_name with
     | some tn =>
       tokenOk tn
         && decide (args = [if is_generator then "yields".data else "returns".data, tn])
     | none => decide (args = [if is_generator then "yields".data else "returns".data]))
  | .raises args desc type_name =>
    simpleDesc desc &&
    (match type_name with
     | some tn => tokenOk tn && decide (args = ["raises".data, tn])
     | none => decide (args = ["raises".data]))
  | .deprecated args _ desc =>
    !args.isEmpty && args.all tokenOk && args.head? == some "deprecated".data
      && simpleDesc desc && (matchDeprecated desc).isNone

/-- Document-level well-formedness for the round-trip theorems. -/
def wfDoc (d : Docstring) : Bool :=
  (match d.short_description with
   | some s => shortOk s
   | none => false)
  && (match d.long_description with
      | some l => longOk l
      | none => true)
  && (!d.blank_after_short_description
      || (d.long_description.isSome || !d.meta.isEmpty))
  && (!d.blank_after_long_description || !d.meta.isEmpty)
  && d.meta.all metaOk

/-- The record produced by re-parsing the composition of a well-formed
record: identical except that the param `default` is re-extracted from the
description and a deprecated `version` is dropped (compose never renders
it). -/
def normMeta : DocstringMeta → DocstringMeta
  | .generic args desc => .generic args desc
  | .param args desc arg_name type_name is_optional _ =>
    .param args desc arg_name type_name is_optional
      ((findDefault desc).map (rstripChar '.'))
  | .returns args desc type_name is_generator => .returns args desc type_name is_generator
  | .raises args desc type_name => .raises args desc type_name
  | .deprecated args _ desc => .deprecated args none desc

/-- The document produced by re-parsing the composition of a well-formed
document.  With no long description, a lone blank line after the short
description and a lone blank line before the items re-parse identically,
so the two flags collapse to their disjunction and conjunction. -/
def normDoc (d : Docstring) : Docstring :=
  { short_description := d.short_description
    long_description := d.long_description
    blank_after_short_description :=
      if d.long_description.isSome then d.blank_after_short_description
      else d.blank_after_short_description || d.blank_after_long_description
    blank_after_long_description :=
      if d.long_description.isSome then d.blank_after_long_description
      else d.blank_after_short_description && d.blank_after_long_description
    meta := d.meta.map normMeta }

/-- The default `indent` argument of `compose` (four spaces). -/
def defaultIndent : Str := "    ".data

/-- Append the separating newline to every block except the last: the text
of block `i` runs up to the `:` opening block `i + 1`, so it keeps the line
break that precedes it. -/
def appendNl : List Str → List Str
  | [] => []
  | [x] => [x]
  | x :: xs => (x ++ ['\n']) :: appendNl xs

/-- The tag chunk between the two `:` of a record's composed tag line (the
text `compose` puts between the opening colon and the closing colon). -/
def tagChunk : DocstringMeta → Str
  | .param _ _ arg_name type_name is_optional _ =>
    "param".data
      ++ (if truthyS type_name then
            if is_optional.getD false then ' ' :: (type_name.getD [] ++ "? ".data)
            else ' ' :: (type_name.getD [] ++ [' '])
          else [' '])
      ++ arg_name
  | .returns _ _ type_name is_generator =>
    (if is_generator then "yields".data else "returns".data)
      ++ (if truthyS type_name then ' ' :: (type_name.getD [] ++ [' ']) else [])
  | .raises _ _ type_name =>
    "raises".data
      ++ (if truthyS type_name then ' ' :: (type_name.getD [] ++ [' ']) else [])
  | .generic args _ => List.intercalate [' '] args
  | .deprecated args _ _ => List.intercalate [' '] args

/-- Spec section 3 invariants on records: at least one raw token, and the
family arity constraints. -/
def specArityOk : DocstringMeta → Bool
  | .param args _ _ _ _ _ => args.length == 2 || args.length == 3
  | .returns args _ _ _ => args.length == 1 || args.length == 2
  | .raises args _ _ => args.length == 1 || args.length == 2
  | _ => true

/-- A document satisfying the data-model invariants the spec states for
`ParsedDocument` (section 3). -/
def specWellFormed (d : Docstring) : Bool :=
  d.meta.all (fun m => !m.args.isEmpty && specArityOk m)

/-! ## Helper lemmas -/

theorem takeWhile_cons_false {p : Char → Bool} {c : Char} (l : Str) (h : p c = false) :
    (c :: l).takeWhile p = [] := by
  have hn : ¬ p c = true := by simp [h]
  rw [List.takeWhile_cons_of_neg hn]

theorem dropWhile_cons_false {p : Char → Bool} {c : Char} (l : Str) (h : p c = false) :
    (c :: l).dropWhile p = c :: l := by
  have hn : ¬ p c = true := by simp [h]
  rw [List.dropWhile_cons_of_neg hn]

theorem isPrefixOf_append_self (p t : Str) : p.isPrefixOf (p ++ t) = true := by
  induction p with
  | nil => cases t <;> rfl
  | cons a as ih => simp [List.isPrefixOf, ih]

theorem findDefaultAux_of_not_hasSub (s : Str)
    (h : hasSub defaultsToPat s = false) : findDefaultAux s = none := by
  induction s with
  | nil => rfl
  | cons c cs ih =>
    rw [hasSub, Bool.or_eq_false_iff] at h
    rw [findDefaultAux, ih h.2, h.1]
    simp

theorem findDefaultAux_append (l r : Str) (hr : r ≠ [])
    (hno : hasSub defaultsToPat ((defaultsToPat ++ r).drop 1) = false) :
    findDefaultAux (l ++ (defaultsToPat ++ r)) = some r := by
  induction l with
  | nil =>
    have hd : defaultsToPat = 'd' :: "efaults to ".data := by decide
    have htail : (defaultsToPat ++ r).drop 1 = "efaults to ".data ++ r := by
      rw [hd]; rfl
    have hnone : findDefaultAux ("efaults to ".data ++ r) = none :=
      findDefaultAux_of_not_hasSub _ (htail ▸ hno)
    rw [List.nil_append]
    rw [hd, List.cons_append, findDefaultAux, hnone, ← List.cons_append, ← hd,
      isPrefixOf_append_self]
    simp only [if_true, List.drop_left]
    simp [List.isEmpty_iff, hr]
  | cons c l' ih =>
    rw [List.cons_append, findDefaultAux, ih]

theorem findDefault_append (l r : Str) (hr : r ≠ [])
    (hno : hasSub defaultsToPat ((defaultsToPat ++ r).drop 1) = false) :
    findDefault (l ++ (defaultsToPat ++ r)) = some r := by
  rw [findDefault]
  exact findDefaultAux_append l r hr hno

theorem digit_not_vV {c : Char} (h : c.isDigit = true) :
    (c == 'v' || c == 'V') = false := by
  cases hv : c == 'v' with
  | true =>
    rw [beq_iff_eq] at hv
    subst hv
    exact absurd h (by decide)
  | false =>
    cases hV : c == 'V' with
    | true =>
      rw [beq_iff_eq] at hV
      subst hV
      exact absurd h (by decide)
    | false => simp [hv, hV]

theorem matchDeprecated_shape (vpre ds segs rest : Str)
    (hv : vpre = [] ∨ vpre = ['v'] ∨ vpre = ['V'])
    (hds : ds ≠ []) (hdsall : ∀ c ∈ ds, c.isDigit = true)
    (hsegs : segs ≠ []) (hsegsall : ∀ c ∈ segs, isVerSegChar c = true)
    (hrest : rest.takeWhile (· != '\n') ≠ []) :
    matchDeprecated (vpre ++ (ds ++ '.' :: (segs ++ ' ' :: rest)))
      = some (vpre ++ (ds ++ '.' :: segs), rest.takeWhile (· != '\n')) := by
  have hdotneg : Char.isDigit '.' = false := by decide
  have hspneg : isVerSegChar ' ' = false := by decide
  obtain ⟨d0, ds', rfl⟩ : ∃ d0 ds', ds = d0 :: ds' := by
    cases ds with
    | nil => exact absurd rfl hds
    | cons x xs => exact ⟨x, xs, rfl⟩
  have hvhead : (d0 == 'v' || d0 == 'V') = false := digit_not_vV (hdsall d0 (by simp))
  have htw : List.takeWhile Char.isDigit (d0 :: (ds' ++ '.' :: (segs ++ ' ' :: rest)))
      = d0 :: ds' := by
    rw [← List.cons_append, List.takeWhile_append_of_pos hdsall,
      takeWhile_cons_false _ hdotneg, List.append_nil]
  have hdw : List.dropWhile Char.isDigit (d0 :: (ds' ++ '.' :: (segs ++ ' ' :: rest)))
      = '.' :: (segs ++ ' ' :: rest) := by
    rw [← List.cons_append, List.dropWhile_append_of_pos hdsall,
      dropWhile_cons_false _ hdotneg]
  have hseg1 : List.takeWhile isVerSegChar (segs ++ ' ' :: rest) = segs := by
    rw [List.takeWhile_append_of_pos hsegsall, takeWhile_cons_false _ hspneg,
      List.append_nil]
  have hseg2 : List.dropWhile isVerSegChar (segs ++ ' ' :: rest) = ' ' :: rest := by
    rw [List.dropWhile_append_of_pos hsegsall, dropWhile_cons_false _ hspneg]
  rcases hv with rfl | rfl | rfl <;>
    simp [matchDeprecated, List.cons_append, hvhead, htw, hdw, hseg1, hseg2,
      List.isEmpty_iff, hsegs, hrest, List.append_assoc]

/-! ## Claims C4, C5, C6, C9, C10 -/

/-- **C4** (counterexample): the deprecated-family description `"1.2 a\nb"`
starts with the version-looking token `1.2` followed by a space, yet parsing
yields description `"a"` — not the entire remaining text `"a\nb"` as the
claim states: the `desc` group of the version regex stops at the first line
break. -/
theorem C4_counterexample :
    _build_meta ["deprecated".data] "1.2 a\nb".data
        = .ok (.deprecated ["deprecated".data] (some "1.2".data) "a".data)
      ∧ _build_meta ["deprecated".data] "1.2 a\nb".data
        ≠ .ok (.deprecated ["deprecated".data] (some "1.2".data) "a\nb".data) := by
  decide

/-- **C4** (amended): for every deprecated-family block whose description
starts with a version-looking token (`v?` prefix, digits, a dot, then
digit/letter/dot segments) followed by a space and at least one non-newline
character, `_build_meta` yields that token as `version` and the remaining
text **up to the first line break** as `description`; when no leading
version token matches, `version` is absent and `description` is the full
original description unchanged. -/
theorem C4_deprecated_version (vpre ds segs rest : Str)
    (hv : vpre = [] ∨ vpre = ['v'] ∨ vpre = ['V'])
    (hds : ds ≠ []) (hdsall : ∀ c ∈ ds, c.isDigit = true)
    (hsegs : segs ≠ []) (hsegsall : ∀ c ∈ segs, isVerSegChar c = true)
    (hrest : rest.takeWhile (· != '\n') ≠ []) :
    _build_meta ["deprecated".data] (vpre ++ (ds ++ '.' :: (segs ++ ' ' :: rest)))
        = .ok (.deprecated ["deprecated".data] (some (vpre ++ (ds ++ '.' :: segs)))
            (rest.takeWhile (· != '\n')))
      ∧ ∀ desc, matchDeprecated desc = none →
          _build_meta ["deprecated".data] desc
            = .ok (.deprecated ["deprecated".data] none desc) := by
  constructor
  · simp only [_build_meta]
    rw [if_neg (by decide), if_neg (by decide), if_pos (by decide),
      matchDeprecated_shape vpre ds segs rest hv hds hdsall hsegs hsegsall hrest]
  · intro desc hnone
    simp only [_build_meta]
    rw [if_neg (by decide), if_neg (by decide), if_pos (by decide), hnone]

/-- **C4** witness: `:deprecated 1.2.3 new api` gives version `1.2.3` and
description `new api`; a description with no version stays unchanged. -/
theorem C4_deprecated_version_witness :
    _build_meta ["deprecated".data]
        ([] ++ (['1'] ++ '.' :: ("2.3".data ++ ' ' :: "new api".data)))
      = .ok (.deprecated ["deprecated".data] (some ([] ++ (['1'] ++ '.' :: "2.3".data)))
          ("new api".data.takeWhile (· != '\n')))
    ∧ _build_meta ["deprecated".data] "no version here".data
      = .ok (.deprecated ["deprecated".data] none "no version here".data) := by
  have h := C4_deprecated_version [] ['1'] "2.3".data "new api".data (Or.inl rfl)
    (by decide) (by decide) (by decide) (by decide) (by decide)
  exact ⟨h.1, h.2 _ (by decide)⟩

/-- **C5** (confirmed): a three-token param block `:param <type>? <name>:`
whose description carries a final `defaults to R` pattern parses with
`is_optional = true`, the `?` marker stripped from the type, the given
argument name, and `default` equal to `R` with trailing periods stripped. -/
theorem C5_param_optional_default (t n R : Str) (hR : R ≠ [])
    (hno : hasSub defaultsToPat ((defaultsToPat ++ R).drop 1) = false) :
    _build_meta ["param".data, t ++ ['?'], n] (defaultsToPat ++ R)
      = .ok (.param ["param".data, t ++ ['?'], n] (defaultsToPat ++ R) n
          (some t) (some true) (some (rstripChar '.' R))) := by
  have hfd : findDefault (defaultsToPat ++ R) = some R := by
    have h := findDefaultAux_append [] R hR hno
    rw [List.nil_append] at h
    rw [findDefault]
    exact h
  simp only [_build_meta]
  rw [if_pos (by decide)]
  simp [List.getLast?_concat, List.dropLast_concat, hfd]

/-- **C5** witness: `:param int? x: defaults to 3.` yields an optional `int`
parameter named `x` with default `3`. -/
theorem C5_param_optional_default_witness :
    _build_meta ["param".data, "int".data ++ ['?'], "x".data]
        (defaultsToPat ++ "3.".data)
      = .ok (.param ["param".data, "int".data ++ ['?'], "x".data]
          (defaultsToPat ++ "3.".data) "x".data (some "int".data) (some true)
          (some (rstripChar '.' "3.".data))) :=
  C5_param_optional_default "int".data "x".data "3.".data (by decide) (by decide)

/-- **C6** (confirmed): a two-token param block `:param <name>:` parses with
no type and with `is_optional` equal to the distinct unknown value `none`,
which is not `some false`. -/
theorem C6_param_two_tokens (n : Str) (desc : Str) :
    _build_meta ["param".data, n] desc
      = .ok (.param ["param".data, n] desc n none none
          ((findDefault desc).map (rstripChar '.')))
    ∧ (none : Option Bool) ≠ some false := by
  constructor
  · simp only [_build_meta]
    rw [if_pos (by decide)]
  · simp

/-- **C9** (confirmed): a deprecated-family block is accepted by
`_build_meta` for every token count (no arity check), unlike the param,
returns/yields, and raises families, which reject wrong counts. -/
theorem C9_deprecated_no_arity_check (restArgs : List Str) (desc : Str) :
    (∃ v d2, _build_meta ("deprecated".data :: restArgs) desc
        = .ok (.deprecated ("deprecated".data :: restArgs) v d2))
    ∧ exceptIsOk (_build_meta ["param".data, "a".data, "b".data, "c".data] desc) = false
    ∧ exceptIsOk (_build_meta ["returns".data, "a".data, "b".data] desc) = false
    ∧ exceptIsOk (_build_meta ["raises".data, "a".data, "b".data] desc) = false := by
  refine ⟨?_, ?_, ?_, ?_⟩
  · simp only [_build_meta]
    rw [if_neg (by decide), if_neg (by decide), if_pos (by decide)]
    cases hm : matchDeprecated desc with
    | some vd => exact ⟨some vd.1, vd.2, rfl⟩
    | none => exact ⟨none, desc, rfl⟩
  · simp only [_build_meta]
    rw [if_pos (by decide)]
    rfl
  · simp only [_build_meta]
    rw [if_neg (by decide), if_pos (by decide)]
    rfl
  · simp only [_build_meta]
    rw [if_neg (by decide), if_neg (by decide), if_neg (by decide), if_pos (by decide)]
    rfl

/-- **C10** (confirmed): when a param-family description contains
`defaults to` several times, the extracted default is the text after the
last occurrence (the greedy `.*` prefix spans line breaks), and the match
is case-sensitive: `Defaults to X` yields no default. -/
theorem C10_default_last_occurrence :
    (∀ n pre R : Str, R ≠ [] →
      hasSub defaultsToPat ((defaultsToPat ++ R).drop 1) = false →
      _build_meta ["param".data, n] (pre ++ (defaultsToPat ++ R))
        = .ok (.param ["param".data, n] (pre ++ (defaultsToPat ++ R)) n none none
            (some (rstripChar '.' R))))
    ∧ _build_meta ["param".data, "x".data] "Defaults to X".data
      = .ok (.param ["param".data, "x".data] "Defaults to X".data "x".data
          none none none) := by
  constructor
  · intro n pre R hR hno
    have hfd : findDefault (pre ++ (defaultsToPat ++ R)) = some R := by
      rw [findDefault]
      exact findDefaultAux_append pre R hR hno
    simp only [_build_meta]
    rw [if_pos (by decide)]
    simp [hfd]
  · decide

/-- **C10** witness: with two occurrences (and a line break before the
second) the default comes from the last occurrence. -/
theorem C10_default_last_occurrence_witness :
    _build_meta ["param".data, "x".data]
        ("first defaults to a.\nthen ".data ++ (defaultsToPat ++ "b".data))
      = .ok (.param ["param".data, "x".data]
          ("first defaults to a.\nthen ".data ++ (defaultsToPat ++ "b".data)) "x".data
          none none (some (rstripChar '.' "b".data))) :=
  C10_default_last_occurrence.1 "x".data "first defaults to a.\nthen ".data "b".data
    (by decide) (by decide)

/-! ## Claims C7 and C8 -/

theorem expandtabsAux_no_tab (s : Str) (h : ∀ c ∈ s, c ≠ '\t') :
    ∀ col, expandtabsAux s col = s := by
  induction s with
  | nil => intro col; rfl
  | cons c cs ih =>
    intro col
    have hc : (c == '\t') = false := by
      cases hcc : c == '\t' with
      | true => rw [beq_iff_eq] at hcc; exact absurd hcc (h c (by simp))
      | false => rfl
    have ih2 := ih (fun x hx => h x (List.mem_cons_of_mem _ hx))
    rw [expandtabsAux, hc]
    cases hnr : (c == '\n' || c == '\r') <;> simp [hnr, ih2]

theorem splitCharAux_replicate_nl (b : Nat) (cur : Str) :
    splitCharAux '\n' (List.replicate b '\n') cur
      = cur.reverse :: List.replicate b [] := by
  induction b generalizing cur with
  | zero => rfl
  | succ b ih =>
    rw [List.replicate_succ, splitCharAux, if_pos (by decide), ih]
    simp [List.replicate_succ]

theorem splitCharAux_spaces_newlines (a b : Nat) (cur : Str) :
    splitCharAux '\n' (List.replicate a ' ' ++ List.replicate b '\n') cur
      = (cur.reverse ++ List.replicate a ' ') :: List.replicate b [] := by
  induction a generalizing cur with
  | zero => simp [splitCharAux_replicate_nl]
  | succ a ih =>
    rw [List.replicate_succ, List.cons_append, splitCharAux, if_neg (by decide), ih]
    simp [List.replicate_succ]

theorem pyLstrip_replicate_space (a : Nat) :
    pyLstrip (List.replicate a ' ') = [] := by
  rw [pyLstrip, List.dropWhile_replicate, if_pos (by decide)]

theorem marginOf_replicate_nil (b : Nat) :
    marginOf (List.replicate b []) = none := by
  induction b with
  | zero => rfl
  | succ b ih =>
    rw [List.replicate_succ, marginOf]
    have h1 : lineIndent ([] : Str) = none := rfl
    rw [h1, ih]

theorem dedentLines_margin_none (l0 : Str) (rest : List Str)
    (h : marginOf rest = none) :
    dedentLines (l0 :: rest) = pyLstrip l0 :: rest := by
  rw [dedentLines, h]

theorem map_drop_zero (ls : List Str) : List.map (List.drop 0) ls = ls := by
  induction ls with
  | nil => rfl
  | cons x xs ih => rw [List.map_cons, List.drop_zero, ih]

theorem dedentLines_margin_zero (l0 : Str) (rest : List Str)
    (h : marginOf rest = some 0) :
    dedentLines (l0 :: rest) = pyLstrip l0 :: rest := by
  rw [dedentLines, h]
  show pyLstrip l0 :: List.map (List.drop 0) rest = pyLstrip l0 :: rest
  rw [map_drop_zero]

theorem cleandoc_spaces_newlines (a b : Nat) :
    cleandoc (List.replicate a ' ' ++ List.replicate b '\n') = [] := by
  have hnt : ∀ c ∈ (List.replicate a ' ' ++ List.replicate b '\n' : Str), c ≠ '\t' := by
    intro c hc
    rcases List.mem_append.mp hc with h | h
    · rw [List.eq_of_mem_replicate h]; decide
    · rw [List.eq_of_mem_replicate h]; decide
  simp only [cleandoc, expandtabs]
  rw [expandtabsAux_no_tab _ hnt 0, splitChar, splitCharAux_spaces_newlines]
  simp only [List.reverse_nil, List.nil_append]
  rw [dedentLines_margin_none _ _ (marginOf_replicate_nil b), pyLstrip_replicate_space]
  rw [show ∀ b : Nat, ([] : Str) :: List.replicate b [] = List.replicate (b+1) [] from
    fun b => (List.replicate_succ [] b).symm]
  rw [List.reverse_replicate, List.dropWhile_replicate, if_pos (by decide)]
  rfl

/-- **C8** (counterexample): the whitespace-only input `"\n "` parses
without error but yields a document whose short description is `" "` — not
the all-empty document the claim demands. -/
theorem C8_counterexample :
    (['\n', ' '] : Str).all isSpaceChar = true
    ∧ parse ['\n', ' '] = .ok ⟨some [' '], none, false, false, []⟩
    ∧ (⟨some [' '], none, false, false, []⟩ : Docstring) ≠ emptyDocstring := by
  decide

/-- **C8** (amended): `parse` succeeds with the all-empty document on empty
input and on whitespace-only input consisting of spaces followed by
newlines; whitespace-only inputs carrying (non-newline) whitespace after a
line break instead give a whitespace short description. -/
theorem C8_empty_whitespace (a b : Nat) :
    parse [] = .ok emptyDocstring
    ∧ parse (List.replicate a ' ' ++ List.replicate b '\n') = .ok emptyDocstring := by
  refine ⟨by decide, ?_⟩
  by_cases hab : (List.replicate a ' ' ++ List.replicate b '\n' : Str).isEmpty = true
  · rw [parse, if_pos hab]
  · rw [parse, if_neg hab]
    simp only [preambleOf, metaChunkOf, cleandoc_spaces_newlines]
    rfl

/-- **C7** (confirmed): `"Short.\n\nLong."` parses with
`blank_after_short_description = true` and long description `"Long."`;
`"Short.\nLong."` parses with the flag `false`; and in general, whenever the
preamble splits at a first line break with remainder `rest`,
`blank_after_short_description` is true iff `rest` begins with a line break
and `blank_after_long_description` is true iff `rest` ends with two line
breaks. -/
theorem C7_blank_flags :
    (parse "Short.\n\nLong.".data
      = .ok ⟨some "Short.".data, some "Long.".data, true, false, []⟩)
    ∧ (parse "Short.\nLong.".data
      = .ok ⟨some "Short.".data, some "Long.".data, false, false, []⟩)
    ∧ ∀ text first rest d,
        splitOnce '\n' (preambleOf text) = some (first, rest) →
        parse text = .ok d →
        d.blank_after_short_description = startsWithNL rest
        ∧ d.blank_after_long_description = endsWithNN rest := by
  refine ⟨by decide, by decide, ?_⟩
  intro text first rest d hsplit hparse
  by_cases hempty : text.isEmpty = true
  · have htext : text = [] := by
      cases text with
      | nil => rfl
      | cons c cs => simp at hempty
    subst htext
    have hnone : splitOnce '\n' (preambleOf []) = none := by decide
    rw [hnone] at hsplit
    cases hsplit
  · rw [parse, if_neg hempty] at hparse
    rw [hsplit] at hparse
    cases hpb : processBlocks (splitBlocks (metaChunkOf text)) with
    | error e =>
      rw [hpb] at hparse
      cases hparse
    | ok ms =>
      rw [hpb] at hparse
      have hd : d = { short_description := strOrNone first
                      long_description := strOrNone (pyStrip rest)
                      blank_after_short_description := startsWithNL rest
                      blank_after_long_description := endsWithNN rest
                      meta := ms } := by
        cases hparse
        rfl
      rw [hd]
      exact ⟨rfl, rfl⟩

/-- **C7** witness: the general flag characterization applied to
`"Short.\n\nLong."`. -/
theorem C7_blank_flags_witness :
    (⟨some "Short.".data, some "Long.".data, true, false, []⟩ :
        Docstring).blank_after_short_description
      = startsWithNL "\nLong.".data
    ∧ (⟨some "Short.".data, some "Long.".data, true, false, []⟩ :
        Docstring).blank_after_long_description
      = endsWithNN "\nLong.".data :=
  C7_blank_flags.2.2 "Short.\n\nLong.".data "Short.".data "\nLong.".data
    ⟨some "Short.".data, some "Long.".data, true, false, []⟩
    (by decide) (by decide)

/-! ## Claim C3 -/

theorem splitBlocksAux_shape (s : Str) : ∀ (flag : Bool) (acc : Str),
    ∃ t ts, splitBlocksAux s flag acc = (acc.reverse ++ t) :: ts
      ∧ ∀ b ∈ ts, ∃ u, b = ':' :: u := by
  induction s with
  | nil =>
    intro flag acc
    exact ⟨[], [], by simp [splitBlocksAux], by simp⟩
  | cons c cs ih =>
    intro flag acc
    rw [splitBlocksAux]
    by_cases h : (flag && c == ':') = true
    · rw [if_pos h]
      have hc : c = ':' := by
        have := (Bool.and_eq_true _ _).mp h
        rw [beq_iff_eq] at this
        exact this.2
      obtain ⟨t, ts, heq, hts⟩ := ih false [c]
      refine ⟨[], splitBlocksAux cs false [c], by simp, ?_⟩
      intro b hb
      rw [heq] at hb
      rcases List.mem_cons.mp hb with hb | hb
      · exact ⟨t, by simp [hb, hc]⟩
      · exact hts b hb
    · rw [if_neg h]
      obtain ⟨t, ts, heq, hts⟩ := ih (c == '\n') (c :: acc)
      refine ⟨c :: t, ts, ?_, hts⟩
      rw [heq]
      simp

theorem splitBlocks_head_colon (s : Str) :
    ∀ b ∈ splitBlocks s, ∃ u, b = ':' :: u := by
  rw [splitBlocks]
  obtain ⟨t, ts, heq, hts⟩ := splitBlocksAux_shape s true []
  rw [heq]
  simpa using hts

theorem build_meta_error_classify (args : List Str) (desc : Str) (h : args ≠ []) :
    ((∃ m, _build_meta args desc = .error (.parseError m)) ↔ arityBad args = true)
    ∧ _build_meta args desc ≠ .error .indexError := by
  obtain ⟨key, restArgs, rfl⟩ : ∃ k r, args = k :: r := by
    cases args with
    | nil => exact absurd rfl h
    | cons k r => exact ⟨k, r, rfl⟩
  simp only [_build_meta, arityBad]
  by_cases h1 : key ∈ PARAM_KEYWORDS
  · rw [if_pos h1, if_pos h1]
    rcases restArgs with _ | ⟨a1, _ | ⟨a2, _ | ⟨a3, r3⟩⟩⟩ <;> simp
  · rw [if_neg h1, if_neg h1]
    by_cases h2 : key ∈ RETURNS_KEYWORDS ++ YIELDS_KEYWORDS
    · rw [if_pos h2, if_pos h2]
      rcases restArgs with _ | ⟨a1, _ | ⟨a2, r2⟩⟩ <;> simp
    · rw [if_neg h2, if_neg h2]
      by_cases h3 : key ∈ DEPRECATION_KEYWORDS
      · rw [if_pos h3, if_pos h3]
        cases matchDeprecated desc <;> simp
      · rw [if_neg h3, if_neg h3]
        by_cases h4 : key ∈ RAISES_KEYWORDS
        · rw [if_pos h4, if_pos h4]
          rcases restArgs with _ | ⟨a1, _ | ⟨a2, r2⟩⟩ <;> simp
        · rw [if_neg h4, if_neg h4]
          simp

theorem processBlocks_cons_none (b : Str) (bs : List Str)
    (hb : b.isEmpty = false) (hpc : parseChunk b = none) :
    processBlocks (b :: bs) = .error (.parseError (errorNearMsg b)) := by
  rw [processBlocks, if_neg (by simp [hb]), hpc]

theorem processBlocks_cons_some (b : Str) (bs : List Str) (ad : List Str × Str)
    (hb : b.isEmpty = false) (hpc : parseChunk b = some ad) :
    processBlocks (b :: bs)
      = match _build_meta ad.1 ad.2 with
        | .error e => .error e
        | .ok m =>
          match processBlocks bs with
          | .error e => .error e
          | .ok ms => .ok (m :: ms) := by
  rw [processBlocks, if_neg (by simp [hb]), hpc]

theorem processBlocks_parseError_iff (bs : List Str)
    (hcolon : ∀ b ∈ bs, ∃ u, b = ':' :: u)
    (hne : ∀ b ∈ bs, blockEmptyArgs b = false) :
    (∃ m, processBlocks bs = .error (.parseError m))
      ↔ ∃ b ∈ bs, blockBad b = true := by
  induction bs with
  | nil => simp [processBlocks]
  | cons b bs ih =>
    have hbne : b.isEmpty = false := by
      obtain ⟨u, rfl⟩ := hcolon b (by simp)
      rfl
    have ihh := ih (fun x hx => hcolon x (List.mem_cons_of_mem _ hx))
      (fun x hx => hne x (List.mem_cons_of_mem _ hx))
    cases hpc : parseChunk b with
    | none =>
      have heq := processBlocks_cons_none b bs hbne hpc
      have hbad : blockBad b = true := by simp only [blockBad, hpc]
      rw [heq]
      constructor
      · intro _
        exact ⟨b, by simp, hbad⟩
      · intro _
        exact ⟨errorNearMsg b, rfl⟩
    | some ad =>
      have hadne : ad.1 ≠ [] := by
        have hx := hne b (by simp)
        simp only [blockEmptyArgs, hpc] at hx
        simpa [List.isEmpty_iff] using hx
      have hclass := build_meta_error_classify ad.1 ad.2 hadne
      cases hbm : _build_meta ad.1 ad.2 with
      | error e =>
        cases e with
        | indexError => exact absurd hbm hclass.2
        | parseError m =>
          have heq : processBlocks (b :: bs) = .error (.parseError m) := by
            rw [processBlocks_cons_some b bs ad hbne hpc, hbm]
          have hbad : blockBad b = true := by
            simp only [blockBad, hpc]
            exact hclass.1.mp ⟨m, hbm⟩
          rw [heq]
          constructor
          · intro _
            exact ⟨b, by simp, hbad⟩
          · intro _
            exact ⟨m, rfl⟩
      | ok mrec =>
        have hnotbad : blockBad b = false := by
          simp only [blockBad, hpc]
          cases hab : arityBad ad.1 with
          | false => rfl
          | true =>
            obtain ⟨m, hm⟩ := hclass.1.mpr hab
            rw [hm] at hbm
            cases hbm
        cases hpb : processBlocks bs with
        | error e =>
          have heq : processBlocks (b :: bs) = .error e := by
            rw [processBlocks_cons_some b bs ad hbne hpc, hbm, hpb]
          rw [heq]
          rw [hpb] at ihh
          constructor
          · rintro ⟨m, hm⟩
            obtain ⟨b', hb', hbad'⟩ := ihh.mp ⟨m, by rw [Except.error.inj hm]⟩
            exact ⟨b', List.mem_cons_of_mem _ hb', hbad'⟩
          · rintro ⟨b', hb', hbad'⟩
            rcases List.mem_cons.mp hb' with rfl | hb2
            · rw [hnotbad] at hbad'
              cases hbad'
            · exact ihh.mpr ⟨b', hb2, hbad'⟩
        | ok ms =>
          have heq : processBlocks (b :: bs) = .ok (mrec :: ms) := by
            rw [processBlocks_cons_some b bs ad hbne hpc, hbm, hpb]
          rw [heq]
          rw [hpb] at ihh
          constructor
          · rintro ⟨m, hm⟩
            cases hm
          · rintro ⟨b', hb', hbad'⟩
            rcases List.mem_cons.mp hb' with rfl | hb2
            · rw [hnotbad] at hbad'
              cases hbad'
            · obtain ⟨m, hm⟩ := ihh.mpr ⟨b', hb2, hbad'⟩
              cases hm

theorem parse_parseError_iff_processBlocks (text : Str)
    (hempty : text.isEmpty = false) (m : Str) :
    parse text = .error (.parseError m)
      ↔ processBlocks (splitBlocks (metaChunkOf text)) = .error (.parseError m) := by
  rw [parse, if_neg (by simp [hempty])]
  cases hpb : processBlocks (splitBlocks (metaChunkOf text)) with
  | error e => simp
  | ok ms => simp

/-- **C3** (counterexample): on `": :a\n:param a b c:"` the second block
violates the param arity, yet `parse` raises `IndexError` — not a
`ParseError` — because the first block's tag-token list is empty and
`args[0]` fails first. -/
theorem C3_counterexample :
    parse ": :a\n:param a b c:".data = .error .indexError
    ∧ (∃ b ∈ splitBlocks (metaChunkOf ": :a\n:param a b c:".data), blockBad b = true)
    ∧ ∀ m, parse ": :a\n:param a b c:".data ≠ .error (.parseError m) := by
  refine ⟨by decide, by decide, ?_⟩
  intro m hm
  have h : parse ": :a\n:param a b c:".data = .error .indexError := by decide
  rw [h] at hm
  cases Except.error.inj hm

/-- **C3** (amended): provided no block yields an empty tag-token list (such
a block fails with `IndexError` instead), `parse` raises a `ParseError`
exactly when some block either lacks a second `:` delimiter or violates the
arity of its keyword family (param: 2 or 3 tokens; returns/yields and
raises: 1 or 2); in particular `:param a b c:` and `:returns a b:` raise
`ParseError`s whose messages name the offending keyword. -/
theorem C3_parse_error_iff :
    (∀ text : Str,
      (∀ b ∈ splitBlocks (metaChunkOf text), blockEmptyArgs b = false) →
      ((∃ m, parse text = .error (.parseError m))
        ↔ ∃ b ∈ splitBlocks (metaChunkOf text), blockBad b = true))
    ∧ (parse ":param a b c:".data = .error (.parseError (paramArityMsg "param".data))
        ∧ hasSub "param".data (paramArityMsg "param".data) = true)
    ∧ (parse ":returns a b:".data = .error (.parseError (returnsArityMsg "returns".data))
        ∧ hasSub "returns".data (returnsArityMsg "returns".data) = true) := by
  refine ⟨?_, ⟨by decide, by decide⟩, ⟨by decide, by decide⟩⟩
  intro text hne
  by_cases hempty : text.isEmpty = true
  · have htext : text = [] := by
      cases text with
      | nil => rfl
      | cons c cs => simp at hempty
    subst htext
    constructor
    · rintro ⟨m, hm⟩
      have h : parse ([] : Str) = .ok emptyDocstring := by decide
      rw [h] at hm
      cases hm
    · rintro ⟨b, hb, _⟩
      have h : splitBlocks (metaChunkOf ([] : Str)) = [] := by decide
      rw [h] at hb
      cases hb
  · have hf : text.isEmpty = false := by
      cases hq : text.isEmpty with
      | true => exact absurd hq hempty
      | false => rfl
    have hiff := processBlocks_parseError_iff (splitBlocks (metaChunkOf text))
      (splitBlocks_head_colon _) hne
    constructor
    · rintro ⟨m, hm⟩
      exact hiff.mp ⟨m, (parse_parseError_iff_processBlocks text hf m).mp hm⟩
    · intro hb
      obtain ⟨m, hm⟩ := hiff.mpr hb
      exact ⟨m, (parse_parseError_iff_processBlocks text hf m).mpr hm⟩

/-- **C3** witness: the general characterization applied to
`":param a b c: d"` produces a `ParseError`. -/
theorem C3_parse_error_iff_witness :
    ∃ m, parse ":param a b c: d".data = .error (.parseError m) :=
  (C3_parse_error_iff.1 ":param a b c: d".data (by decide)).mpr (by decide)

/-! ## String lemmas for the round-trip proof -/

theorem splitOnce_no_sep (sep : Char) (s : Str) (h : sep ∉ s) :
    splitOnce sep s = none := by
  induction s with
  | nil => rfl
  | cons c cs ih =>
    have hc : (c == sep) = false := by
      cases hq : c == sep with
      | true => exact absurd (by rw [beq_iff_eq] at hq; rw [hq]; simp) h
      | false => rfl
    rw [splitOnce, hc, ih (fun hm => h (List.mem_cons_of_mem _ hm))]
    simp

theorem splitOnce_append_first (sep : Char) (a b : Str) (h : sep ∉ a) :
    splitOnce sep (a ++ sep :: b) = some (a, b) := by
  induction a with
  | nil => simp [splitOnce]
  | cons c cs ih =>
    have hc : (c == sep) = false := by
      cases hq : c == sep with
      | true => exact absurd (by rw [beq_iff_eq] at hq; rw [hq]; simp) h
      | false => rfl
    rw [List.cons_append, splitOnce, hc, ih (fun hm => h (List.mem_cons_of_mem _ hm))]
    simp

theorem pyLstrip_cons_space {c : Char} (h : isSpaceChar c = true) (s : Str) :
    pyLstrip (c :: s) = pyLstrip s := by
  rw [pyLstrip, pyLstrip, List.dropWhile_cons_of_pos h]

theorem pyLstrip_cons_not {c : Char} (h : isSpaceChar c = false) (s : Str) :
    pyLstrip (c :: s) = c :: s := by
  rw [pyLstrip, dropWhile_cons_false _ h]

theorem pyLstrip_of_head (s : Str)
    (h : s.head?.all (fun c => !isSpaceChar c) = true) : pyLstrip s = s := by
  cases s with
  | nil => rfl
  | cons c cs =>
    simp only [List.head?_cons, Option.all_some, Bool.not_eq_true'] at h
    exact pyLstrip_cons_not h cs

theorem pyLstrip_append_spaces (a b : Str) (h : ∀ c ∈ a, isSpaceChar c = true) :
    pyLstrip (a ++ b) = pyLstrip b := by
  rw [pyLstrip, pyLstrip, List.dropWhile_append_of_pos h]

theorem pyRstrip_append_space {c : Char} (h : isSpaceChar c = true) (s : Str) :
    pyRstrip (s ++ [c]) = pyRstrip s := by
  rw [pyRstrip, pyRstrip, List.reverse_append]
  simp only [List.reverse_cons, List.reverse_nil, List.nil_append, List.cons_append]
  rw [List.dropWhile_cons_of_pos h]

theorem pyRstrip_of_last (s : Str)
    (h : s.getLast?.all (fun c => !isSpaceChar c) = true) : pyRstrip s = s := by
  rw [pyRstrip]
  cases hr : s.reverse with
  | nil =>
    have : s = [] := by simpa using congrArg List.reverse hr
    simp [this]
  | cons c cs =>
    have hcl : s.getLast? = some c := by
      rw [← List.head?_reverse, hr, List.head?_cons]
    rw [hcl, Option.all_some, Bool.not_eq_true'] at h
    rw [dropWhile_cons_false _ h, ← hr, List.reverse_reverse]

theorem pyStrip_simple (d : Str) (h : simpleDesc d = true) : pyStrip d = d := by
  rw [simpleDesc, Bool.and_eq_true, Bool.and_eq_true] at h
  rw [pyStrip, pyLstrip_of_head d ?hh, pyRstrip_of_last d h.2]
  case hh =>
    cases d with
    | nil => rfl
    | cons c cs =>
      have := h.1.2
      simp only [List.head?_cons, Option.all_some, Bool.and_eq_true] at this ⊢
      exact this.1

theorem endsWithNN_append_two (x : Str) : endsWithNN (x ++ ['\n', '\n']) = true := by
  rw [endsWithNN, List.reverse_append]
  rfl

theorem endsWithNN_of_last (s : Str) (h : s.getLast? ≠ some '\n') :
    endsWithNN s = false := by
  rw [endsWithNN]
  cases hr : s.reverse with
  | nil => rfl
  | cons c cs =>
    have hcl : s.getLast? = some c := by
      rw [← List.head?_reverse, hr, List.head?_cons]
    have hc : c ≠ '\n' := fun hcc => h (by rw [hcl, hcc])
    cases cs with
    | nil => simp [hc]
    | cons c2 cs2 => simp [hc]

theorem endsWithNN_append_one (x : Str) (h : x.getLast? ≠ some '\n') :
    endsWithNN (x ++ ['\n']) = false := by
  rw [endsWithNN, List.reverse_append]
  simp only [List.reverse_cons, List.reverse_nil, List.nil_append, List.cons_append]
  cases hr : x.reverse with
  | nil => rfl
  | cons c cs =>
    have hcl : x.getLast? = some c := by
      rw [← List.head?_reverse, hr, List.head?_cons]
    have hc : c ≠ '\n' := fun hcc => h (by rw [hcl, hcc])
    simp [hc]

theorem intercalate_single (s a : Str) : List.intercalate s [a] = a := by
  simp [List.intercalate]

theorem intercalate_cons_cons (s a b : Str) (t : List Str) :
    List.intercalate s (a :: b :: t) = a ++ s ++ List.intercalate s (b :: t) := by
  simp [List.intercalate, List.append_assoc]

theorem splitCharAux_ne_nil (sep : Char) (s cur : Str) :
    splitCharAux sep s cur ≠ [] := by
  induction s generalizing cur with
  | nil => simp [splitCharAux]
  | cons c cs ih =>
    rw [splitCharAux]
    by_cases h : (c == sep) = true
    · rw [if_pos h]
      simp
    · rw [if_neg h]
      exact ih _

theorem splitCharAux_join (sep : Char) (s cur : Str) :
    List.intercalate [sep] (splitCharAux sep s cur) = cur.reverse ++ s := by
  induction s generalizing cur with
  | nil => simp [splitCharAux, intercalate_single]
  | cons c cs ih =>
    rw [splitCharAux]
    by_cases h : (c == sep) = true
    · have hc : c = sep := by rwa [beq_iff_eq] at h
      rw [if_pos h]
      obtain ⟨b, bs, hbs⟩ : ∃ b bs, splitCharAux sep cs [] = b :: bs := by
        cases hq : splitCharAux sep cs [] with
        | nil => exact absurd hq (splitCharAux_ne_nil sep cs [])
        | cons b bs => exact ⟨b, bs, rfl⟩
      have hj := ih ([] : Str)
      rw [hbs] at hj
      simp only [List.reverse_nil, List.nil_append] at hj
      rw [hbs, intercalate_cons_cons, hj]
      simp [hc]
    · rw [if_neg h, ih (c :: cur)]
      simp

theorem intercalate_splitChar (sep : Char) (s : Str) :
    List.intercalate [sep] (splitChar sep s) = s := by
  rw [splitChar, splitCharAux_join]
  rfl

theorem splitCharAux_no_sep (sep : Char) (s cur : Str) (h : sep ∉ s) :
    splitCharAux sep s cur = [cur.reverse ++ s] := by
  induction s generalizing cur with
  | nil => simp [splitCharAux]
  | cons c cs ih =>
    have hc : (c == sep) = false := by
      cases hq : c == sep with
      | true => exact absurd (by rw [beq_iff_eq] at hq; rw [hq]; simp) h
      | false => rfl
    rw [splitCharAux, hc]
    simp only [Bool.false_eq_true, if_false]
    rw [ih (c :: cur) (fun hm => h (List.mem_cons_of_mem _ hm))]
    simp

theorem splitChar_no_sep (sep : Char) (s : Str) (h : sep ∉ s) :
    splitChar sep s = [s] := by
  rw [splitChar, splitCharAux_no_sep sep s [] h]
  rfl

theorem splitCharAux_append (sep : Char) (a b cur : Str) :
    splitCharAux sep (a ++ sep :: b) cur
      = splitCharAux sep a cur ++ splitChar sep b := by
  induction a generalizing cur with
  | nil =>
    have h : (sep == sep) = true := by simp
    rw [List.nil_append, splitCharAux, splitCharAux, if_pos h]
    rfl
  | cons c cs ih =>
    rw [List.cons_append, splitCharAux, splitCharAux]
    by_cases h : (c == sep) = true
    · rw [if_pos h, if_pos h, ih []]
      simp
    · rw [if_neg h, if_neg h, ih (c :: cur)]

theorem splitChar_append (sep : Char) (a b : Str) :
    splitChar sep (a ++ sep :: b) = splitChar sep a ++ splitChar sep b := by
  rw [splitChar, splitChar, splitCharAux_append]

theorem intercalate_head_flat (l : Str) (ls : List Str) :
    List.intercalate ['\n'] (l :: ls)
      = l ++ ls.flatMap (fun x => '\n' :: x) := by
  induction ls generalizing l with
  | nil => simp [intercalate_single]
  | cons l2 t ih =>
    rw [intercalate_cons_cons, ih l2]
    simp

theorem intercalate_append_parts (P M : List Str) (hP : P ≠ []) (hM : M ≠ []) :
    List.intercalate ['\n'] (P ++ M)
      = List.intercalate ['\n'] P ++ '\n' :: List.intercalate ['\n'] M := by
  induction P with
  | nil => exact absurd rfl hP
  | cons p ps ih =>
    cases ps with
    | nil =>
      obtain ⟨m, ms, rfl⟩ : ∃ m ms, M = m :: ms := by
        cases M with
        | nil => exact absurd rfl hM
        | cons m ms => exact ⟨m, ms, rfl⟩
      rw [List.singleton_append, intercalate_cons_cons, intercalate_single]
      simp
    | cons p2 ps2 =>
      have ih2 := ih (by simp)
      rw [List.cons_append] at ih2
      calc List.intercalate ['\n'] ((p :: p2 :: ps2) ++ M)
          = List.intercalate ['\n'] (p :: (p2 :: (ps2 ++ M))) := by
            rw [List.cons_append, List.cons_append]
        _ = p ++ ['\n'] ++ List.intercalate ['\n'] (p2 :: (ps2 ++ M)) :=
            intercalate_cons_cons ['\n'] p p2 (ps2 ++ M)
        _ = p ++ ['\n'] ++ (List.intercalate ['\n'] (p2 :: ps2)
              ++ '\n' :: List.intercalate ['\n'] M) := by rw [ih2]
        _ = List.intercalate ['\n'] (p :: p2 :: ps2)
              ++ '\n' :: List.intercalate ['\n'] M := by
            rw [intercalate_cons_cons]
            simp [List.append_assoc]

/-! ## Line-anchor lemmas for the round-trip proof -/

theorem okPre_append (a c : Str) (b : Bool) (ha : okPre a b = true)
    (hc : okPre c (flagAfter a b) = true) : okPre (a ++ c) b = true := by
  induction a generalizing b with
  | nil => exact hc
  | cons x xs ih =>
    rw [okPre, Bool.and_eq_true] at ha
    rw [List.cons_append, okPre, Bool.and_eq_true]
    exact ⟨ha.1, ih _ ha.2 hc⟩

theorem flagAfter_append (a c : Str) (b : Bool) :
    flagAfter (a ++ c) b = flagAfter c (flagAfter a b) := by
  induction a generalizing b with
  | nil => rfl
  | cons x xs ih =>
    rw [List.cons_append, flagAfter, flagAfter, ih]

theorem okPre_cons_nl (x : Str) (b : Bool) : okPre ('\n' :: x) b = okPre x true := by
  rw [okPre]
  simp

theorem okPre_of_no_nl_false (s : Str) (h : '\n' ∉ s) : okPre s false = true := by
  induction s with
  | nil => rfl
  | cons c cs ih =>
    have hc : (c == '\n') = false := by
      cases hq : c == '\n' with
      | true => exact absurd (by rw [beq_iff_eq] at hq; rw [hq]; simp) h
      | false => rfl
    rw [okPre, hc, ih (fun hm => h (List.mem_cons_of_mem _ hm))]
    simp

theorem okPre_of_no_nl_true (s : Str) (h : '\n' ∉ s) (hh : s.head? ≠ some ':') :
    okPre s true = true := by
  cases s with
  | nil => rfl
  | cons c cs =>
    have hc : (c == ':') = false := by
      cases hq : c == ':' with
      | true =>
        rw [beq_iff_eq] at hq
        exact absurd (by rw [hq]; rfl) hh
      | false => rfl
    have hn : (c == '\n') = false := by
      cases hq : c == '\n' with
      | true => exact absurd (by rw [beq_iff_eq] at hq; rw [hq]; simp) h
      | false => rfl
    rw [okPre, hc, hn, okPre_of_no_nl_false cs (fun hm => h (List.mem_cons_of_mem _ hm))]
    simp

theorem flagAfter_of_last (s : Str) (b : Bool) (hne : s ≠ []) :
    flagAfter s b = (s.getLast? == some '\n') := by
  induction s generalizing b with
  | nil => exact absurd rfl hne
  | cons c cs ih =>
    cases cs with
    | nil => rfl
    | cons c2 cs2 =>
      rw [flagAfter, ih _ (by simp)]
      rw [List.getLast?_cons_cons]

theorem splitMeta_all (s : Str) (b : Bool) (h : okPre s b = true) :
    splitMeta s b = (s, []) := by
  induction s generalizing b with
  | nil => rfl
  | cons c cs ih =>
    rw [okPre, Bool.and_eq_true] at h
    rw [splitMeta]
    rw [Bool.not_eq_true'] at h
    rw [h.1]
    simp only [Bool.false_eq_true, if_false]
    rw [ih _ h.2]

theorem splitMeta_split (pre post : Str) (b : Bool) (hok : okPre pre b = true)
    (hflag : flagAfter pre b = true) (hpost : post.head? = some ':') :
    splitMeta (pre ++ post) b = (pre, post) := by
  induction pre generalizing b with
  | nil =>
    obtain ⟨u, rfl⟩ : ∃ u, post = ':' :: u := by
      cases post with
      | nil => cases hpost
      | cons c cs => exact ⟨cs, by rw [List.head?_cons] at hpost; rw [Option.some.inj hpost]⟩
    rw [List.nil_append, splitMeta]
    have hb : b = true := hflag
    rw [hb]
    simp
  | cons c cs ih =>
    rw [okPre, Bool.and_eq_true] at hok
    rw [List.cons_append, splitMeta]
    rw [Bool.not_eq_true'] at hok
    rw [hok.1]
    simp only [Bool.false_eq_true, if_false]
    rw [ih _ hok.2 hflag]

theorem splitBlocksAux_no_colon (s : Str) (b : Bool) (acc : Str)
    (h : okPre s b = true) : splitBlocksAux s b acc = [acc.reverse ++ s] := by
  induction s generalizing b acc with
  | nil => simp [splitBlocksAux]
  | cons c cs ih =>
    rw [okPre, Bool.and_eq_true, Bool.not_eq_true'] at h
    rw [splitBlocksAux, h.1]
    simp only [Bool.false_eq_true, if_false]
    rw [ih _ _ h.2]
    simp

theorem splitBlocksAux_split (s u : Str) (b : Bool) (acc : Str)
    (hok : okPre s b = true) (hflag : flagAfter s b = true) :
    splitBlocksAux (s ++ ':' :: u) b acc
      = (acc.reverse ++ s) :: splitBlocksAux u false [':'] := by
  induction s generalizing b acc with
  | nil =>
    have hb : b = true := hflag
    rw [List.nil_append, splitBlocksAux, hb]
    simp
  | cons c cs ih =>
    rw [okPre, Bool.and_eq_true, Bool.not_eq_true'] at hok
    rw [List.cons_append, splitBlocksAux, hok.1]
    simp only [Bool.false_eq_true, if_false]
    rw [ih _ _ hok.2 hflag]
    simp

/-! ## Block-chain, token-split and cleandoc-stability lemmas -/

theorem okPre_nl_single (b : Bool) : okPre ['\n'] b = true := by
  cases b <;> rfl

theorem flagAfter_nl_single (b : Bool) : flagAfter ['\n'] b = true := rfl

theorem splitBlocksAux_chain (ls : List Str) (v : Str)
    (hv : okPre v false = true)
    (h : ∀ l ∈ ls, ∃ w, l = ':' :: w ∧ okPre w false = true) :
    splitBlocksAux (v ++ ls.flatMap (fun l => '\n' :: l)) false [':']
      = appendNl ((':' :: v) :: ls) := by
  induction ls generalizing v with
  | nil =>
    simp only [List.flatMap_nil, List.append_nil]
    rw [splitBlocksAux_no_colon v false [':'] hv]
    rfl
  | cons l1 rest ih =>
    obtain ⟨w1, rfl, hw1⟩ := h l1 (by simp)
    have hflat : (((':' :: w1) :: rest).flatMap (fun l => '\n' :: l))
        = '\n' :: ':' :: (w1 ++ rest.flatMap (fun l => '\n' :: l)) := by
      simp
    rw [hflat]
    have hshape : v ++ '\n' :: ':' :: (w1 ++ rest.flatMap (fun l => '\n' :: l))
        = (v ++ ['\n']) ++ ':' :: (w1 ++ rest.flatMap (fun l => '\n' :: l)) := by
      simp
    rw [hshape]
    rw [splitBlocksAux_split (v ++ ['\n']) _ false [':']
      (okPre_append v ['\n'] false hv (okPre_nl_single _))
      (by rw [flagAfter_append]; exact flagAfter_nl_single _)]
    rw [ih w1 hw1 (fun l hl => h l (List.mem_cons_of_mem _ hl))]
    rfl

theorem splitBlocks_chain (ls : List Str)
    (h : ∀ l ∈ ls, ∃ w, l = ':' :: w ∧ okPre w false = true) :
    splitBlocks (List.intercalate ['\n'] ls) = appendNl ls := by
  cases ls with
  | nil => rfl
  | cons l0 rest =>
    obtain ⟨w0, rfl, hw0⟩ := h l0 (by simp)
    rw [intercalate_head_flat]
    rw [splitBlocks]
    have hcons : (':' :: w0) ++ rest.flatMap (fun l => '\n' :: l)
        = ':' :: (w0 ++ rest.flatMap (fun l => '\n' :: l)) := by simp
    rw [hcons, splitBlocksAux]
    have hc : (true && ':' == ':') = true := by decide
    rw [hc]
    simp only [if_true]
    rw [splitBlocksAux_chain rest w0 hw0 (fun l hl => h l (List.mem_cons_of_mem _ hl))]

theorem tokenOk_nonspace {t : Str} (h : tokenOk t = true) :
    ∀ c ∈ t, isSpaceChar c = false := by
  rw [tokenOk, Bool.and_eq_true] at h
  intro c hc
  have h2 := (List.all_eq_true.mp h.2) c hc
  rw [tokenChar, Bool.and_eq_true, Bool.not_eq_true'] at h2
  exact h2.1

theorem tokenOk_no_colon {t : Str} (h : tokenOk t = true) : ':' ∉ t := by
  rw [tokenOk, Bool.and_eq_true] at h
  intro hc
  have h2 := (List.all_eq_true.mp h.2) ':' hc
  rw [tokenChar, Bool.and_eq_true] at h2
  simp at h2

theorem tokenOk_ne_nil {t : Str} (h : tokenOk t = true) : t ≠ [] := by
  intro hq
  rw [hq] at h
  cases h

theorem pySplitWsAux_nonspace (t : Str) (ht : ∀ c ∈ t, isSpaceChar c = false)
    (r cur : Str) :
    pySplitWsAux (t ++ r) cur = pySplitWsAux r (t.reverse ++ cur) := by
  induction t generalizing cur with
  | nil => simp
  | cons c cs ih =>
    have hc := ht c (by simp)
    rw [List.cons_append, pySplitWsAux, hc]
    simp only [Bool.false_eq_true, if_false]
    rw [ih (fun x hx => ht x (List.mem_cons_of_mem _ hx)) (c :: cur)]
    simp

theorem pySplitWs_tokens (toks : List Str) (h : ∀ t ∈ toks, tokenOk t = true)
    (tail : Str) (htail : tail = [] ∨ tail = [' ']) :
    pySplitWsAux (List.intercalate [' '] toks ++ tail) [] = toks := by
  induction toks with
  | nil =>
    rcases htail with rfl | rfl <;> rfl
  | cons t ts ih =>
    have ht := h t (by simp)
    have htne : t.reverse ≠ [] := by
      intro hq
      exact tokenOk_ne_nil ht (by simpa using congrArg List.reverse hq)
    cases ts with
    | nil =>
      rw [intercalate_single]
      rw [pySplitWsAux_nonspace t (tokenOk_nonspace ht) tail []]
      rcases htail with rfl | rfl
      · rw [pySplitWsAux]
        simp [List.isEmpty_iff, htne]
      · rw [pySplitWsAux]
        have hsp : isSpaceChar ' ' = true := by decide
        rw [hsp]
        simp [List.isEmpty_iff, htne, pySplitWsAux]
    | cons t2 ts2 =>
      rw [intercalate_cons_cons]
      have hshape : (t ++ [' '] ++ List.intercalate [' '] (t2 :: ts2)) ++ tail
          = t ++ (' ' :: (List.intercalate [' '] (t2 :: ts2) ++ tail)) := by
        simp
      rw [hshape, pySplitWsAux_nonspace t (tokenOk_nonspace ht) _ []]
      rw [pySplitWsAux]
      have hsp : isSpaceChar ' ' = true := by decide
      rw [hsp]
      simp only [List.append_nil, List.isEmpty_iff, if_true]
      rw [if_neg (by simpa [List.isEmpty_iff] using htne)]
      rw [ih (fun x hx => h x (List.mem_cons_of_mem _ hx))]
      simp

theorem pops_id (ls : List Str) (hh : ls.head? ≠ some [])
    (hl : ls.getLast? ≠ some []) :
    (((ls.reverse.dropWhile List.isEmpty).reverse).dropWhile List.isEmpty) = ls := by
  cases hls : ls with
  | nil => rfl
  | cons l0 rest =>
    subst hls
    obtain ⟨x, xs, hxr⟩ : ∃ x xs, (l0 :: rest).reverse = x :: xs := by
      cases hq : (l0 :: rest).reverse with
      | nil =>
        have h2 := congrArg List.reverse hq
        rw [List.reverse_reverse, List.reverse_nil] at h2
        cases h2
      | cons x xs => exact ⟨x, xs, rfl⟩
    have hxl : (l0 :: rest).getLast? = some x := by
      rw [← List.head?_reverse, hxr, List.head?_cons]
    have hxne : x.isEmpty = false := by
      cases hxe : x with
      | nil => exact absurd (by rw [hxl, hxe]) hl
      | cons c cs => rfl
    rw [hxr, List.dropWhile_cons_of_neg (by simp [hxne]), ← hxr, List.reverse_reverse]
    have hl0 : l0.isEmpty = false := by
      cases hle : l0 with
      | nil => exact absurd (by rw [List.head?_cons, hle]) hh
      | cons c cs => rfl
    rw [List.dropWhile_cons_of_neg (by simp [hl0])]

theorem lineIndent_head_nonspace (l : Str) (hne : l ≠ [])
    (hh : l.head?.all (fun c => !isSpaceChar c) = true) :
    lineIndent l = some 0 := by
  rw [lineIndent, pyLstrip_of_head l hh]
  simp [List.isEmpty_iff, hne]

theorem marginOf_zero_of_mem (ls : List Str) (l : Str) (hmem : l ∈ ls)
    (hind : lineIndent l = some 0) : marginOf ls = some 0 := by
  induction ls with
  | nil => cases hmem
  | cons x xs ih =>
    rcases List.mem_cons.mp hmem with rfl | hmem2
    · rw [marginOf, hind]
      cases hq : marginOf xs with
      | none => rfl
      | some m =>
        show some (Nat.min 0 m) = some 0
        congr 1
        exact Nat.le_antisymm (Nat.min_le_left 0 m) (Nat.zero_le _)
    · rw [marginOf, ih hmem2]
      cases hq : lineIndent x with
      | none => rfl
      | some i =>
        show some (Nat.min i 0) = some 0
        congr 1
        exact Nat.le_antisymm (Nat.min_le_right i 0) (Nat.zero_le _)

theorem cleandoc_id_of (s : Str)
    (hnt : ∀ c ∈ s, c ≠ '\t')
    (hmargin : marginOf (splitChar '\n' s).tail = none
      ∨ marginOf (splitChar '\n' s).tail = some 0)
    (hfirst : pyLstrip ((splitChar '\n' s).head?.getD []) = (splitChar '\n' s).head?.getD [])
    (hfirstne : (splitChar '\n' s).head? ≠ some [])
    (hlastne : (splitChar '\n' s).getLast? ≠ some []) :
    cleandoc s = s := by
  obtain ⟨l0, rest, hls⟩ : ∃ l0 rest, splitChar '\n' s = l0 :: rest := by
    cases hq : splitChar '\n' s with
    | nil => exact absurd hq (splitCharAux_ne_nil '\n' s [])
    | cons l0 rest => exact ⟨l0, rest, rfl⟩
  rw [hls] at hmargin hfirst hfirstne hlastne
  simp only [List.head?_cons, Option.getD_some, List.tail_cons] at hmargin hfirst
  rw [cleandoc, expandtabs, expandtabsAux_no_tab s hnt 0, hls]
  have hded : dedentLines (l0 :: rest) = l0 :: rest := by
    rcases hmargin with h | h
    · rw [dedentLines_margin_none _ _ h, hfirst]
    · rw [dedentLines_margin_zero _ _ h, hfirst]
  rw [hded, pops_id (l0 :: rest) (by simpa using hfirstne) hlastne, ← hls,
    intercalate_splitChar]

/-! ## Per-record support lemmas -/

theorem simpleDesc_no_nl {d : Str} (h : simpleDesc d = true) : '\n' ∉ d := by
  rw [simpleDesc, Bool.and_eq_true, Bool.and_eq_true] at h
  intro hm
  have := (List.all_eq_true.mp h.1.1) '\n' hm
  cases this

theorem simpleDesc_no_tab {d : Str} (h : simpleDesc d = true) : ∀ c ∈ d, c ≠ '\t' := by
  rw [simpleDesc, Bool.and_eq_true, Bool.and_eq_true] at h
  intro c hm hc
  have := (List.all_eq_true.mp h.1.1) c hm
  rw [hc] at this
  cases this

theorem mem_of_getLast?_eq {α : Type} {d : List α} {c : α} (h : d.getLast? = some c) :
    c ∈ d := by
  induction d with
  | nil => cases h
  | cons x xs ih =>
    cases xs with
    | nil =>
      rw [List.getLast?_singleton] at h
      rw [Option.some.inj h]
      simp
    | cons y ys =>
      rw [List.getLast?_cons_cons] at h
      exact List.mem_cons_of_mem _ (ih h)

theorem splitlines_single (d : Str) (hne : d ≠ []) (hnl : '\n' ∉ d) :
    splitlines d = [d] := by
  have h1 : d.isEmpty = false := by
    cases d with
    | nil => exact absurd rfl hne
    | cons c cs => rfl
  have h2 : (d.getLast? == some '\n') = false := by
    cases hq : d.getLast? with
    | none => rfl
    | some c =>
      cases hc : c == '\n' with
      | false => simp [hc]
      | true =>
        rw [beq_iff_eq] at hc
        subst hc
        exact absurd (mem_of_getLast?_eq hq) hnl
  rw [splitlines, h1, h2]
  simp only [Bool.false_eq_true, if_false]
  exact splitChar_no_sep '\n' d hnl

theorem defaultIndent_spaces : ∀ c ∈ defaultIndent, isSpaceChar c = true := by
  decide

theorem process_desc_strip (style : RenderingStyle) (desc : Str)
    (h : simpleDesc desc = true) (sfx : Str) (hsfx : sfx = [] ∨ sfx = ['\n']) :
    pyStrip (process_desc style defaultIndent desc ++ sfx) = desc := by
  have hstrip : pyStrip desc = desc := pyStrip_simple desc h
  by_cases hd : desc.isEmpty = true
  · have hdesc : desc = [] := by
      cases desc with
      | nil => rfl
      | cons c cs => cases hd
    subst hdesc
    rw [process_desc.eq_def]
    simp only [List.isEmpty_nil, if_true, List.nil_append]
    rcases hsfx with rfl | rfl <;> decide
  · obtain ⟨c, ds, rfl⟩ : ∃ c ds, desc = c :: ds := by
      cases desc with
      | nil => cases hd rfl
      | cons c ds => exact ⟨c, ds, rfl⟩
    have hhead : isSpaceChar c = false := by
      rw [simpleDesc, Bool.and_eq_true, Bool.and_eq_true] at h
      have := h.1.2
      simp only [List.head?_cons, Option.all_some, Bool.and_eq_true,
        Bool.not_eq_true'] at this
      exact this.1
    have hrstr : pyRstrip ((c :: ds) ++ sfx) = c :: ds := by
      rcases hsfx with rfl | rfl
      · rw [List.append_nil]
        rw [simpleDesc, Bool.and_eq_true, Bool.and_eq_true] at h
        exact pyRstrip_of_last _ h.2
      · rw [pyRstrip_append_space (by decide)]
        rw [simpleDesc, Bool.and_eq_true, Bool.and_eq_true] at h
        exact pyRstrip_of_last _ h.2
    have hnl : '\n' ∉ c :: ds := simpleDesc_no_nl h
    have hcompact : pyStrip ((' ' :: (c :: ds)) ++ sfx) = c :: ds := by
      rw [pyStrip, List.cons_append, pyLstrip_cons_space (by decide),
        List.cons_append, pyLstrip_cons_not hhead, ← List.cons_append, hrstr]
    cases style with
    | COMPACT =>
      rw [process_desc.eq_def]
      simp only [List.isEmpty_cons, Bool.false_eq_true, if_false]
      exact hcompact
    | CLEAN =>
      rw [process_desc.eq_def]
      simp only [List.isEmpty_cons, Bool.false_eq_true, if_false]
      rw [splitlines_single _ (by simp) hnl]
      show pyStrip (List.intercalate ['\n'] [' ' :: (c :: ds)] ++ sfx) = c :: ds
      rw [intercalate_single]
      exact hcompact
    | EXPANDED =>
      rw [process_desc.eq_def]
      simp only [List.isEmpty_cons, Bool.false_eq_true, if_false]
      rw [splitlines_single _ (by simp) hnl]
      show pyStrip (List.intercalate ['\n'] ['\n' :: (defaultIndent ++ (c :: ds))] ++ sfx)
        = c :: ds
      rw [intercalate_single]
      rw [pyStrip, List.cons_append, pyLstrip_cons_space (by decide), List.append_assoc,
        pyLstrip_append_spaces defaultIndent _ defaultIndent_spaces,
        List.cons_append, pyLstrip_cons_not hhead, ← List.cons_append, hrstr]

theorem join_tokens_no_colon (toks : List Str) (h : ∀ t ∈ toks, tokenOk t = true) :
    ':' ∉ List.intercalate [' '] toks := by
  induction toks with
  | nil => simp [List.intercalate]
  | cons t ts ih =>
    cases ts with
    | nil =>
      rw [intercalate_single]
      exact tokenOk_no_colon (h t (by simp))
    | cons t2 ts2 =>
      rw [intercalate_cons_cons]
      intro hm
      rcases List.mem_append.mp hm with hm1 | hm2
      · rcases List.mem_append.mp hm1 with hm3 | hm4
        · exact tokenOk_no_colon (h t (by simp)) hm3
        · simp at hm4
      · exact ih (fun x hx => h x (List.mem_cons_of_mem _ hx)) hm2

theorem join_tokens_no_nl (toks : List Str) (h : ∀ t ∈ toks, tokenOk t = true) :
    '\n' ∉ List.intercalate [' '] toks := by
  induction toks with
  | nil => simp [List.intercalate]
  | cons t ts ih =>
    have hts : ∀ c ∈ t, isSpaceChar c = false := tokenOk_nonspace (h t (by simp))
    cases ts with
    | nil =>
      rw [intercalate_single]
      intro hm
      have := hts '\n' hm
      cases this
    | cons t2 ts2 =>
      rw [intercalate_cons_cons]
      intro hm
      rcases List.mem_append.mp hm with hm1 | hm2
      · rcases List.mem_append.mp hm1 with hm3 | hm4
        · cases hts '\n' hm3
        · simp at hm4
      · exact ih (fun x hx => h x (List.mem_cons_of_mem _ hx)) hm2

theorem join_tokens_ne_nil (t0 : Str) (ts : List Str) (h : tokenOk t0 = true) :
    List.intercalate [' '] (t0 :: ts) ≠ [] := by
  cases ts with
  | nil =>
    rw [intercalate_single]
    exact tokenOk_ne_nil h
  | cons t2 ts2 =>
    rw [intercalate_cons_cons]
    intro hq
    rcases List.append_eq_nil.mp (List.append_eq_nil.mp hq).1 with ⟨h1, h2⟩
    exact tokenOk_ne_nil h h1

theorem parseChunk_block (tc dp desc : Str)
    (htcne : tc ≠ []) (htc : ':' ∉ tc)
    (hdp : pyStrip dp = desc) (hdesc : '\n' ∉ desc) :
    parseChunk (':' :: (tc ++ ':' :: dp)) = some (pySplitWs tc, desc) := by
  obtain ⟨c0, tc', rfl⟩ : ∃ c0 tc', tc = c0 :: tc' := by
    cases tc with
    | nil => exact absurd rfl htcne
    | cons c0 tc' => exact ⟨c0, tc', rfl⟩
  have hc0 : (c0 == ':') = false := by
    cases hq : c0 == ':' with
    | true => exact absurd (by rw [beq_iff_eq] at hq; rw [hq]; simp) htc
    | false => rfl
  have hls : lstripChar ':' (':' :: ((c0 :: tc') ++ ':' :: dp))
      = (c0 :: tc') ++ ':' :: dp := by
    rw [lstripChar, List.dropWhile_cons, if_pos (by simp), List.cons_append,
      List.dropWhile_cons, if_neg (by simp [hc0])]
  rw [parseChunk, hls, splitOnce_append_first ':' _ dp htc]
  show some (pySplitWs (c0 :: tc'),
    match splitOnce '\n' (pyStrip dp) with
    | none => pyStrip dp
    | some (first_line, rest) => first_line ++ '\n' :: cleandoc rest) = _
  rw [hdp, splitOnce_no_sep '\n' desc hdesc]

/-! ## Tag-chunk lemmas: each composed tag line reproduces its record -/

theorem mem_intercalate_sep (sep : Str) (c : Char) (ls : List Str)
    (h : c ∈ List.intercalate sep ls) : c ∈ sep ∨ ∃ l ∈ ls, c ∈ l := by
  induction ls with
  | nil => simp [List.intercalate] at h
  | cons t ts ih =>
    cases ts with
    | nil =>
      rw [intercalate_single] at h
      exact Or.inr ⟨t, by simp, h⟩
    | cons t2 ts2 =>
      rw [intercalate_cons_cons] at h
      rcases List.mem_append.mp h with h1 | h2
      · rcases List.mem_append.mp h1 with h3 | h4
        · exact Or.inr ⟨t, by simp, h3⟩
        · exact Or.inl h4
      · rcases ih h2 with h5 | ⟨l, hl, hcl⟩
        · exact Or.inl h5
        · exact Or.inr ⟨l, List.mem_cons_of_mem _ hl, hcl⟩

theorem join_tokens_no_tab (toks : List Str) (h : ∀ t ∈ toks, tokenOk t = true) :
    '\t' ∉ List.intercalate [' '] toks := by
  intro hm
  rcases mem_intercalate_sep [' '] '\t' toks hm with h1 | ⟨t, ht, hct⟩
  · simp at h1
  · have h2 := tokenOk_nonspace (h t ht) '\t' hct
    exact absurd h2 (by decide)

theorem tokenOk_append_q {tn : Str} (h : tokenOk tn = true) :
    tokenOk (tn ++ ['?']) = true := by
  rw [tokenOk, Bool.and_eq_true] at h
  rw [tokenOk, Bool.and_eq_true]
  constructor
  · simp
  · rw [List.all_append, h.2, Bool.true_and]
    decide

theorem metaOk_simpleDesc (r : DocstringMeta) (hr : metaOk r = true) :
    simpleDesc r.description = true := by
  cases r with
  | generic args desc =>
    simp only [metaOk, Bool.and_eq_true] at hr
    exact hr.2
  | param args desc n tn opt dflt =>
    simp only [metaOk, Bool.and_eq_true] at hr
    exact hr.1.1
  | returns args desc tn g =>
    simp only [metaOk, Bool.and_eq_true] at hr
    exact hr.1
  | raises args desc tn =>
    simp only [metaOk, Bool.and_eq_true] at hr
    exact hr.1
  | deprecated args v desc =>
    simp only [metaOk, Bool.and_eq_true] at hr
    exact hr.1.2

theorem simpleDesc_last_ne_nl {d : Str} (h : simpleDesc d = true) :
    d.getLast? ≠ some '\n' := by
  rw [simpleDesc, Bool.and_eq_true, Bool.and_eq_true] at h
  intro hq
  have h2 := h.2
  rw [hq] at h2
  exact absurd h2 (by decide)

theorem tagChunk_join (r : DocstringMeta) (hr : metaOk r = true) :
    ∃ tail, (tail = [] ∨ tail = [' '])
      ∧ tagChunk r = List.intercalate [' '] r.args ++ tail
      ∧ (∀ t ∈ r.args, tokenOk t = true) ∧ r.args ≠ [] := by
  cases r with
  | generic args desc =>
    simp only [metaOk, Bool.and_eq_true] at hr
    refine ⟨[], Or.inl rfl, by simp [tagChunk, DocstringMeta.args], ?_, ?_⟩
    · exact fun t ht => List.all_eq_true.mp hr.1.1.2 t ht
    · intro hq
      simp only [DocstringMeta.args] at hq
      rw [hq] at hr
      exact absurd hr.1.1.1 (by decide)
  | deprecated args v desc =>
    simp only [metaOk, Bool.and_eq_true] at hr
    refine ⟨[], Or.inl rfl, by simp [tagChunk, DocstringMeta.args], ?_, ?_⟩
    · exact fun t ht => List.all_eq_true.mp hr.1.1.1.2 t ht
    · intro hq
      simp only [DocstringMeta.args] at hq
      rw [hq] at hr
      exact absurd hr.1.1.1.1 (by decide)
  | param args desc n tn opt dflt =>
    cases tn with
    | none =>
      cases opt with
      | none =>
        simp only [metaOk, Bool.and_eq_true] at hr
        obtain ⟨⟨hdesc, hname⟩, hm⟩ := hr
        have hargs := of_decide_eq_true hm
        subst hargs
        refine ⟨[], Or.inl rfl, ?_, ?_, by simp [DocstringMeta.args]⟩
        · simp only [tagChunk, DocstringMeta.args, truthyS, Bool.false_eq_true, if_false]
          rw [intercalate_cons_cons, intercalate_single]
          simp
        · intro t ht
          simp only [DocstringMeta.args] at ht
          rcases List.mem_cons.mp ht with rfl | ht2
          · decide
          · rcases List.mem_cons.mp ht2 with rfl | h3
            · exact hname
            · cases h3
      | some b => cases b <;> simp [metaOk] at hr
    | some t =>
      cases opt with
      | none => simp [metaOk] at hr
      | some b =>
        cases b with
        | true =>
          simp only [metaOk, Bool.and_eq_true] at hr
          obtain ⟨⟨hdesc, hname⟩, htn, hm⟩ := hr
          have hargs := of_decide_eq_true hm
          subst hargs
          have htne := tokenOk_ne_nil htn
          have h1 : truthyS (some t) = true := by
            rw [truthyS]
            cases t with
            | nil => exact absurd rfl htne
            | cons c cs => rfl
          refine ⟨[], Or.inl rfl, ?_, ?_, by simp [DocstringMeta.args]⟩
          · simp only [tagChunk, DocstringMeta.args, h1, Option.getD_some, if_true]
            rw [intercalate_cons_cons, intercalate_cons_cons, intercalate_single]
            simp [List.append_assoc]
          · intro x hx
            simp only [DocstringMeta.args] at hx
            rcases List.mem_cons.mp hx with rfl | hx2
            · decide
            · rcases List.mem_cons.mp hx2 with rfl | hx3
              · exact tokenOk_append_q htn
              · rcases List.mem_cons.mp hx3 with rfl | hx4
                · exact hname
                · cases hx4
        | false =>
          simp only [metaOk, Bool.and_eq_true] at hr
          obtain ⟨⟨hdesc, hname⟩, ⟨htn, hq⟩, hm⟩ := hr
          have hargs := of_decide_eq_true hm
          subst hargs
          have htne := tokenOk_ne_nil htn
          have h1 : truthyS (some t) = true := by
            rw [truthyS]
            cases t with
            | nil => exact absurd rfl htne
            | cons c cs => rfl
          refine ⟨[], Or.inl rfl, ?_, ?_, by simp [DocstringMeta.args]⟩
          · simp only [tagChunk, DocstringMeta.args, h1, Option.getD_some,
              Bool.false_eq_true, if_false, if_true]
            rw [intercalate_cons_cons, intercalate_cons_cons, intercalate_single]
            simp [List.append_assoc]
          · intro x hx
            simp only [DocstringMeta.args] at hx
            rcases List.mem_cons.mp hx with rfl | hx2
            · decide
            · rcases List.mem_cons.mp hx2 with rfl | hx3
              · exact htn
              · rcases List.mem_cons.mp hx3 with rfl | hx4
                · exact hname
                · cases hx4
  | returns args desc tn g =>
    cases tn with
    | some t =>
      simp only [metaOk, Bool.and_eq_true] at hr
      obtain ⟨hdesc, htn, hm⟩ := hr
      have hargs := of_decide_eq_true hm
      subst hargs
      have htne := tokenOk_ne_nil htn
      have h1 : truthyS (some t) = true := by
        rw [truthyS]
        cases t with
        | nil => exact absurd rfl htne
        | cons c cs => rfl
      refine ⟨[' '], Or.inr rfl, ?_, ?_, by simp [DocstringMeta.args]⟩
      · simp only [tagChunk, DocstringMeta.args, h1, Option.getD_some, if_true]
        rw [intercalate_cons_cons, intercalate_single]
        simp [List.append_assoc]
      · intro x hx
        simp only [DocstringMeta.args] at hx
        rcases List.mem_cons.mp hx with rfl | hx2
        · cases g <;> decide
        · rcases List.mem_cons.mp hx2 with rfl | hx3
          · exact htn
          · cases hx3
    | none =>
      simp only [metaOk, Bool.and_eq_true] at hr
      obtain ⟨hdesc, hm⟩ := hr
      have hargs := of_decide_eq_true hm
      subst hargs
      refine ⟨[], Or.inl rfl, ?_, ?_, by simp [DocstringMeta.args]⟩
      · simp only [tagChunk, DocstringMeta.args, truthyS, Bool.false_eq_true, if_false]
        rw [intercalate_single]
      · intro x hx
        simp only [DocstringMeta.args] at hx
        rcases List.mem_cons.mp hx with rfl | hx2
        · cases g <;> decide
        · cases hx2
  | raises args desc tn =>
    cases tn with
    | some t =>
      simp only [metaOk, Bool.and_eq_true] at hr
      obtain ⟨hdesc, htn, hm⟩ := hr
      have hargs := of_decide_eq_true hm
      subst hargs
      have htne := tokenOk_ne_nil htn
      have h1 : truthyS (some t) = true := by
        rw [truthyS]
        cases t with
        | nil => exact absurd rfl htne
        | cons c cs => rfl
      refine ⟨[' '], Or.inr rfl, ?_, ?_, by simp [DocstringMeta.args]⟩
      · simp only [tagChunk, DocstringMeta.args, h1, Option.getD_some, if_true]
        rw [intercalate_cons_cons, intercalate_single]
        simp [List.append_assoc]
      · intro x hx
        simp only [DocstringMeta.args] at hx
        rcases List.mem_cons.mp hx with rfl | hx2
        · decide
        · rcases List.mem_cons.mp hx2 with rfl | hx3
          · exact htn
          · cases hx3
    | none =>
      simp only [metaOk, Bool.and_eq_true] at hr
      obtain ⟨hdesc, hm⟩ := hr
      have hargs := of_decide_eq_true hm
      subst hargs
      refine ⟨[], Or.inl rfl, ?_, ?_, by simp [DocstringMeta.args]⟩
      · simp only [tagChunk, DocstringMeta.args, truthyS, Bool.false_eq_true, if_false]
        rw [intercalate_single]
      · intro x hx
        simp only [DocstringMeta.args] at hx
        rcases List.mem_cons.mp hx with rfl | hx2
        · decide
        · cases hx2

theorem tagChunk_props (r : DocstringMeta) (hr : metaOk r = true) :
    tagChunk r ≠ [] ∧ ':' ∉ tagChunk r ∧ '\n' ∉ tagChunk r
      ∧ (∀ c ∈ tagChunk r, c ≠ '\t') ∧ pySplitWs (tagChunk r) = r.args := by
  obtain ⟨tail, htail, heq, htoks, hargsne⟩ := tagChunk_join r hr
  obtain ⟨a0, as, hargs⟩ : ∃ a0 as, r.args = a0 :: as := by
    cases hq : r.args with
    | nil => exact absurd hq hargsne
    | cons a0 as => exact ⟨a0, as, rfl⟩
  have h0 : tokenOk a0 = true := htoks a0 (by rw [hargs]; simp)
  refine ⟨?_, ?_, ?_, ?_, ?_⟩
  · rw [heq, hargs]
    intro hq
    exact join_tokens_ne_nil a0 as h0 (List.append_eq_nil.mp hq).1
  · rw [heq]
    intro hm
    rcases List.mem_append.mp hm with h1 | h2
    · exact join_tokens_no_colon r.args htoks h1
    · rcases htail with rfl | rfl
      · cases h2
      · simp at h2
  · rw [heq]
    intro hm
    rcases List.mem_append.mp hm with h1 | h2
    · exact join_tokens_no_nl r.args htoks h1
    · rcases htail with rfl | rfl
      · cases h2
      · simp at h2
  · intro c hc hcq
    subst hcq
    rw [heq] at hc
    rcases List.mem_append.mp hc with h1 | h2
    · exact join_tokens_no_tab r.args htoks h1
    · rcases htail with rfl | rfl
      · cases h2
      · simp at h2
  · rw [heq, pySplitWs]
    exact pySplitWs_tokens r.args htoks tail htail

theorem metaText_eq (style : RenderingStyle) (ind : Str) (r : DocstringMeta) :
    metaText style ind r
      = ':' :: (tagChunk r ++ ':' :: process_desc style ind r.description) := by
  cases r with
  | generic args desc =>
    simp [metaText, tagChunk, DocstringMeta.description, List.append_assoc]
  | param args desc n tn opt dflt =>
    simp [metaText, tagChunk, DocstringMeta.description, List.append_assoc]
  | returns args desc tn g =>
    simp [metaText, tagChunk, DocstringMeta.description, List.append_assoc]
  | raises args desc tn =>
    simp [metaText, tagChunk, DocstringMeta.description, List.append_assoc]
  | deprecated args v desc =>
    simp [metaText, tagChunk, DocstringMeta.description, List.append_assoc]

theorem process_desc_okPre (style : RenderingStyle) (desc : Str)
    (h : simpleDesc desc = true) :
    okPre (process_desc style defaultIndent desc) false = true := by
  by_cases hd : desc.isEmpty = true
  · have hnil : desc = [] := by
      cases desc with
      | nil => rfl
      | cons c cs => cases hd
    subst hnil
    rw [process_desc.eq_def]
    simp only [List.isEmpty_nil, if_true]
    rfl
  · obtain ⟨c, ds, rfl⟩ : ∃ c ds, desc = c :: ds := by
      cases desc with
      | nil => cases hd rfl
      | cons c ds => exact ⟨c, ds, rfl⟩
    have hnl : '\n' ∉ c :: ds := simpleDesc_no_nl h
    have hnl2 : '\n' ∉ ' ' :: (c :: ds) := by
      intro hm
      rcases List.mem_cons.mp hm with h1 | h2
      · exact absurd h1 (by decide)
      · exact hnl h2
    cases style with
    | COMPACT =>
      rw [process_desc.eq_def]
      simp only [List.isEmpty_cons, Bool.false_eq_true, if_false]
      exact okPre_of_no_nl_false _ hnl2
    | CLEAN =>
      rw [process_desc.eq_def]
      simp only [List.isEmpty_cons, Bool.false_eq_true, if_false]
      rw [splitlines_single _ (by simp) hnl]
      show okPre (List.intercalate ['\n'] [' ' :: (c :: ds)]) false = true
      rw [intercalate_single]
      exact okPre_of_no_nl_false _ hnl2
    | EXPANDED =>
      rw [process_desc.eq_def]
      simp only [List.isEmpty_cons, Bool.false_eq_true, if_false]
      rw [splitlines_single _ (by simp) hnl]
      show okPre (List.intercalate ['\n'] ['\n' :: (defaultIndent ++ (c :: ds))])
        false = true
      rw [intercalate_single, okPre_cons_nl]
      apply okPre_append
      · decide
      · have hfl : flagAfter defaultIndent true = false := by decide
        rw [hfl]
        exact okPre_of_no_nl_false _ hnl

theorem process_desc_no_tab (style : RenderingStyle) (desc : Str)
    (h : simpleDesc desc = true) :
    ∀ c ∈ process_desc style defaultIndent desc, c ≠ '\t' := by
  by_cases hd : desc.isEmpty = true
  · have hnil : desc = [] := by
      cases desc with
      | nil => rfl
      | cons c cs => cases hd
    subst hnil
    rw [process_desc.eq_def]
    simp only [List.isEmpty_nil, if_true]
    intro c hc
    cases hc
  · obtain ⟨c0, ds, rfl⟩ : ∃ c0 ds, desc = c0 :: ds := by
      cases desc with
      | nil => cases hd rfl
      | cons c0 ds => exact ⟨c0, ds, rfl⟩
    have hnl : '\n' ∉ c0 :: ds := simpleDesc_no_nl h
    have hdt := simpleDesc_no_tab h
    have hsp : ∀ c ∈ ' ' :: (c0 :: ds), c ≠ '\t' := by
      intro c hc
      rcases List.mem_cons.mp hc with rfl | h2
      · decide
      · exact hdt c h2
    cases style with
    | COMPACT =>
      rw [process_desc.eq_def]
      simp only [List.isEmpty_cons, Bool.false_eq_true, if_false]
      exact hsp
    | CLEAN =>
      rw [process_desc.eq_def]
      simp only [List.isEmpty_cons, Bool.false_eq_true, if_false]
      rw [splitlines_single _ (by simp) hnl]
      show ∀ c ∈ List.intercalate ['\n'] [' ' :: (c0 :: ds)], c ≠ '\t'
      rw [intercalate_single]
      exact hsp
    | EXPANDED =>
      rw [process_desc.eq_def]
      simp only [List.isEmpty_cons, Bool.false_eq_true, if_false]
      rw [splitlines_single _ (by simp) hnl]
      show ∀ c ∈ List.intercalate ['\n'] ['\n' :: (defaultIndent ++ (c0 :: ds))],
        c ≠ '\t'
      rw [intercalate_single]
      intro c hc
      rcases List.mem_cons.mp hc with rfl | h2
      · decide
      · rcases List.mem_append.mp h2 with h3 | h4
        · intro hq
          subst hq
          exact absurd h3 (by decide)
        · exact hdt c h4

theorem process_desc_getLast (style : RenderingStyle) (desc : Str)
    (h : simpleDesc desc = true) :
    (process_desc style defaultIndent desc).getLast? ≠ some '\n' := by
  by_cases hd : desc.isEmpty = true
  · have hnil : desc = [] := by
      cases desc with
      | nil => rfl
      | cons c cs => cases hd
    subst hnil
    rw [process_desc.eq_def]
    simp
  · obtain ⟨c0, ds, rfl⟩ : ∃ c0 ds, desc = c0 :: ds := by
      cases desc with
      | nil => cases hd rfl
      | cons c0 ds => exact ⟨c0, ds, rfl⟩
    have hnl : '\n' ∉ c0 :: ds := simpleDesc_no_nl h
    have hlast : (c0 :: ds).getLast? ≠ some '\n' := simpleDesc_last_ne_nl h
    have hcons : ∀ y : Char, (y :: (c0 :: ds)).getLast? ≠ some '\n' := by
      intro y
      have : (y :: (c0 :: ds)) = [y] ++ (c0 :: ds) := by simp
      rw [this, List.getLast?_append_of_ne_nil _ (by simp)]
      exact hlast
    cases style with
    | COMPACT =>
      rw [process_desc.eq_def]
      simp only [List.isEmpty_cons, Bool.false_eq_true, if_false]
      exact hcons ' '
    | CLEAN =>
      rw [process_desc.eq_def]
      simp only [List.isEmpty_cons, Bool.false_eq_true, if_false]
      rw [splitlines_single _ (by simp) hnl]
      show (List.intercalate ['\n'] [' ' :: (c0 :: ds)]).getLast? ≠ some '\n'
      rw [intercalate_single]
      exact hcons ' '
    | EXPANDED =>
      rw [process_desc.eq_def]
      simp only [List.isEmpty_cons, Bool.false_eq_true, if_false]
      rw [splitlines_single _ (by simp) hnl]
      show (List.intercalate ['\n'] ['\n' :: (defaultIndent ++ (c0 :: ds))]).getLast?
        ≠ some '\n'
      rw [intercalate_single]
      have hshape : ('\n' :: (defaultIndent ++ (c0 :: ds)))
          = ('\n' :: defaultIndent) ++ (c0 :: ds) := by simp
      rw [hshape, List.getLast?_append_of_ne_nil _ (by simp)]
      exact hlast

theorem metaText_okPre (style : RenderingStyle) (r : DocstringMeta)
    (hr : metaOk r = true) :
    ∃ w, metaText style defaultIndent r = ':' :: w ∧ okPre w false = true := by
  obtain ⟨hne, hnc, hnn, hnt, hsplit⟩ := tagChunk_props r hr
  refine ⟨tagChunk r ++ ':' :: process_desc style defaultIndent r.description,
    metaText_eq style defaultIndent r, ?_⟩
  apply okPre_append
  · exact okPre_of_no_nl_false _ hnn
  · have hflag : flagAfter (tagChunk r) false = false := by
      rw [flagAfter_of_last _ _ hne]
      cases hq : (tagChunk r).getLast? with
      | none => rfl
      | some c =>
        cases hc : c == '\n' with
        | false => simp [hc]
        | true =>
          rw [beq_iff_eq] at hc
          subst hc
          exact absurd (mem_of_getLast?_eq hq) hnn
    rw [hflag, okPre]
    have h1 : ((':' : Char) == '\n') = false := by decide
    rw [h1, process_desc_okPre style r.description (metaOk_simpleDesc r hr)]
    decide

theorem metaText_last_ne_nl (style : RenderingStyle) (r : DocstringMeta)
    (hr : metaOk r = true) :
    (metaText style defaultIndent r).getLast? ≠ some '\n' := by
  rw [metaText_eq]
  cases hpd : process_desc style defaultIndent r.description with
  | nil =>
    have hshape : (':' :: (tagChunk r ++ [':'])) = (':' :: tagChunk r) ++ [':'] := by
      simp
    rw [hshape, List.getLast?_concat]
    simp
  | cons c pd' =>
    have hshape : (':' :: (tagChunk r ++ ':' :: (c :: pd')))
        = (':' :: tagChunk r) ++ (':' :: (c :: pd')) := by simp
    rw [hshape, List.getLast?_append_of_ne_nil _ (by simp)]
    have hshape2 : (':' :: (c :: pd')) = [':'] ++ (c :: pd') := by simp
    rw [hshape2, List.getLast?_append_of_ne_nil _ (by simp), ← hpd]
    exact process_desc_getLast style r.description (metaOk_simpleDesc r hr)

theorem metaText_no_tab (style : RenderingStyle) (r : DocstringMeta)
    (hr : metaOk r = true) :
    ∀ c ∈ metaText style defaultIndent r, c ≠ '\t' := by
  obtain ⟨hne, hnc, hnn, hnt, hsplit⟩ := tagChunk_props r hr
  rw [metaText_eq]
  intro c hc
  rcases List.mem_cons.mp hc with rfl | h2
  · decide
  · rcases List.mem_append.mp h2 with h3 | h4
    · exact hnt c h3
    · rcases List.mem_cons.mp h4 with rfl | h5
      · decide
      · exact process_desc_no_tab style r.description (metaOk_simpleDesc r hr) c h5

theorem metaText_parseChunk (style : RenderingStyle) (r : DocstringMeta)
    (hr : metaOk r = true) (sfx : Str) (hsfx : sfx = [] ∨ sfx = ['\n']) :
    parseChunk (metaText style defaultIndent r ++ sfx)
      = some (r.args, r.description) := by
  obtain ⟨hne, hnc, hnn, hnt, hsplit⟩ := tagChunk_props r hr
  have hdesc := metaOk_simpleDesc r hr
  rw [metaText_eq]
  have hshape : (':' :: (tagChunk r ++ ':'
        :: process_desc style defaultIndent r.description)) ++ sfx
      = ':' :: (tagChunk r
        ++ ':' :: (process_desc style defaultIndent r.description ++ sfx)) := by
    simp
  rw [hshape, parseChunk_block (tagChunk r) _ r.description hne hnc
    (process_desc_strip style r.description hdesc sfx hsfx)
    (simpleDesc_no_nl hdesc), hsplit]

theorem build_meta_norm (r : DocstringMeta) (hr : metaOk r = true) :
    _build_meta r.args r.description = .ok (normMeta r) := by
  cases r with
  | generic args desc =>
    simp only [metaOk, Bool.and_eq_true] at hr
    cases args with
    | nil => exact absurd hr.1.1.1 (by decide)
    | cons a0 as =>
      have hkw : unrecognizedKw a0 = true := by
        have h2 := hr.1.2
        rw [List.head?_cons] at h2
        exact h2
      rw [unrecognizedKw, Bool.and_eq_true, Bool.and_eq_true, Bool.and_eq_true] at hkw
      have hp := of_decide_eq_true hkw.1.1.1
      have hry := of_decide_eq_true hkw.1.1.2
      have hd := of_decide_eq_true hkw.1.2
      have hra := of_decide_eq_true hkw.2
      simp only [_build_meta, DocstringMeta.args, DocstringMeta.description, normMeta]
      rw [if_neg hp, if_neg hry, if_neg hd, if_neg hra]
  | param args desc n tn opt dflt =>
    cases tn with
    | none =>
      cases opt with
      | none =>
        simp only [metaOk, Bool.and_eq_true] at hr
        have hargs := of_decide_eq_true hr.2
        subst hargs
        simp only [_build_meta, DocstringMeta.args, DocstringMeta.description, normMeta]
        rw [if_pos (by decide)]
      | some b => cases b <;> simp [metaOk] at hr
    | some t =>
      cases opt with
      | none => simp [metaOk] at hr
      | some b =>
        cases b with
        | true =>
          simp only [metaOk, Bool.and_eq_true] at hr
          obtain ⟨⟨hdesc, hname⟩, htn, hm⟩ := hr
          have hargs := of_decide_eq_true hm
          subst hargs
          simp only [_build_meta, DocstringMeta.args, DocstringMeta.description, normMeta]
          rw [if_pos (by decide)]
          simp [List.getLast?_concat, List.dropLast_concat]
        | false =>
          simp only [metaOk, Bool.and_eq_true] at hr
          obtain ⟨⟨hdesc, hname⟩, ⟨htn, hq⟩, hm⟩ := hr
          have hargs := of_decide_eq_true hm
          subst hargs
          have hq2 : (t.getLast? == some '?') = false := by
            rw [bne, Bool.not_eq_true'] at hq
            exact hq
          simp only [_build_meta, DocstringMeta.args, DocstringMeta.description, normMeta]
          rw [if_pos (by decide)]
          simp [hq2]
  | returns args desc tn g =>
    cases g with
    | true =>
      cases tn with
      | some t =>
        simp only [metaOk, Bool.and_eq_true, if_true] at hr
        obtain ⟨hdesc, htn, hm⟩ := hr
        have hargs := of_decide_eq_true hm
        subst hargs
        simp only [_build_meta, DocstringMeta.args, DocstringMeta.description, normMeta]
        rw [if_neg (by decide), if_pos (by decide)]
        have hdec : decide ("yields".data ∈ YIELDS_KEYWORDS) = true := by decide
        rw [hdec]
      | none =>
        simp only [metaOk, Bool.and_eq_true, if_true] at hr
        have hargs := of_decide_eq_true hr.2
        subst hargs
        simp only [_build_meta, DocstringMeta.args, DocstringMeta.description, normMeta]
        rw [if_neg (by decide), if_pos (by decide)]
        have hdec : decide ("yields".data ∈ YIELDS_KEYWORDS) = true := by decide
        rw [hdec]
    | false =>
      cases tn with
      | some t =>
        simp only [metaOk, Bool.and_eq_true, Bool.false_eq_true, if_false] at hr
        obtain ⟨hdesc, htn, hm⟩ := hr
        have hargs := of_decide_eq_true hm
        subst hargs
        simp only [_build_meta, DocstringMeta.args, DocstringMeta.description, normMeta]
        rw [if_neg (by decide), if_pos (by decide)]
        have hdec : decide ("returns".data ∈ YIELDS_KEYWORDS) = false := by decide
        rw [hdec]
      | none =>
        simp only [metaOk, Bool.and_eq_true, Bool.false_eq_true, if_false] at hr
        have hargs := of_decide_eq_true hr.2
        subst hargs
        simp only [_build_meta, DocstringMeta.args, DocstringMeta.description, normMeta]
        rw [if_neg (by decide), if_pos (by decide)]
        have hdec : decide ("returns".data ∈ YIELDS_KEYWORDS) = false := by decide
        rw [hdec]
  | raises args desc tn =>
    cases tn with
    | some t =>
      simp only [metaOk, Bool.and_eq_true] at hr
      obtain ⟨hdesc, htn, hm⟩ := hr
      have hargs := of_decide_eq_true hm
      subst hargs
      simp only [_build_meta, DocstringMeta.args, DocstringMeta.description, normMeta]
      rw [if_neg (by decide), if_neg (by decide), if_neg (by decide), if_pos (by decide)]
    | none =>
      simp only [metaOk, Bool.and_eq_true] at hr
      have hargs := of_decide_eq_true hr.2
      subst hargs
      simp only [_build_meta, DocstringMeta.args, DocstringMeta.description, normMeta]
      rw [if_neg (by decide), if_neg (by decide), if_neg (by decide), if_pos (by decide)]
  | deprecated args v desc =>
    simp only [metaOk, Bool.and_eq_true] at hr
    cases args with
    | nil => exact absurd hr.1.1.1.1 (by decide)
    | cons a0 as =>
      have ha0 : a0 = "deprecated".data := by
        have h2 := hr.1.1.2
        rw [List.head?_cons] at h2
        rw [beq_iff_eq] at h2
        exact Option.some.inj h2
      subst ha0
      have hnone : matchDeprecated desc = none := by
        have h2 := hr.2
        cases hq : matchDeprecated desc with
        | none => rfl
        | some vd =>
          rw [hq] at h2
          cases h2
      simp only [_build_meta, DocstringMeta.args, DocstringMeta.description, normMeta]
      rw [if_neg (by decide), if_neg (by decide), if_pos (by decide), hnone]

theorem processBlocks_appendNl (style : RenderingStyle) (M : List DocstringMeta)
    (h : ∀ r ∈ M, metaOk r = true) :
    processBlocks (appendNl (M.map (metaText style defaultIndent)))
      = .ok (M.map normMeta) := by
  induction M with
  | nil => rfl
  | cons r rest ih =>
    have hr := h r (by simp)
    cases rest with
    | nil =>
      have happ : appendNl ((r :: ([] : List DocstringMeta)).map
            (metaText style defaultIndent))
          = [metaText style defaultIndent r] := rfl
      rw [happ]
      have hbne : (metaText style defaultIndent r).isEmpty = false := by
        obtain ⟨w, hw, _⟩ := metaText_okPre style r hr
        rw [hw]
        rfl
      have hpc : parseChunk (metaText style defaultIndent r)
          = some (r.args, r.description) := by
        have h2 := metaText_parseChunk style r hr [] (Or.inl rfl)
        rw [List.append_nil] at h2
        exact h2
      rw [processBlocks_cons_some _ [] (r.args, r.description) hbne hpc]
      rw [build_meta_norm r hr]
      rfl
    | cons r2 rest2 =>
      have happ : appendNl ((r :: r2 :: rest2).map (metaText style defaultIndent))
          = (metaText style defaultIndent r ++ ['\n'])
            :: appendNl ((r2 :: rest2).map (metaText style defaultIndent)) := rfl
      rw [happ]
      have hbne : (metaText style defaultIndent r ++ ['\n']).isEmpty = false := by
        obtain ⟨w, hw, _⟩ := metaText_okPre style r hr
        rw [hw]
        rfl
      have hpc := metaText_parseChunk style r hr ['\n'] (Or.inr rfl)
      rw [processBlocks_cons_some _ _ (r.args, r.description) hbne hpc]
      rw [build_meta_norm r hr, ih (fun x hx => h x (List.mem_cons_of_mem _ hx))]
      rfl

theorem splitBlocks_metaTexts (style : RenderingStyle) (M : List DocstringMeta)
    (h : ∀ r ∈ M, metaOk r = true) :
    splitBlocks (List.intercalate ['\n'] (M.map (metaText style defaultIndent)))
      = appendNl (M.map (metaText style defaultIndent)) := by
  apply splitBlocks_chain
  intro l hl
  obtain ⟨r, hrm, hrl⟩ := List.mem_map.mp hl
  subst hrl
  exact metaText_okPre style r (h r hrm)

/-! ## Line decomposition of the composed text -/

theorem splitCharAux_head (sep : Char) (s : Str) :
    ∀ (cur : Str), ∃ u ts, splitCharAux sep s cur = (cur.reverse ++ u) :: ts := by
  induction s with
  | nil =>
    intro cur
    exact ⟨[], [], by rw [splitCharAux]; simp⟩
  | cons c cs ih =>
    intro cur
    rw [splitCharAux]
    cases hq : c == sep with
    | true =>
      rw [if_pos rfl]
      exact ⟨[], splitCharAux sep cs [], by simp⟩
    | false =>
      simp only [Bool.false_eq_true, if_false]
      obtain ⟨u, ts, hu⟩ := ih (c :: cur)
      refine ⟨c :: u, ts, ?_⟩
      rw [hu]
      simp

theorem splitChar_head_cons (sep c : Char) (cs : Str) (hc : (c == sep) = false) :
    ∃ u ts, splitChar sep (c :: cs) = (c :: u) :: ts := by
  rw [splitChar, splitCharAux, hc]
  simp only [Bool.false_eq_true, if_false]
  obtain ⟨u, ts, hu⟩ := splitCharAux_head sep cs [c]
  exact ⟨u, ts, by rw [hu]; simp⟩

theorem getLast?_cons_of_ne_nil {α : Type} (x : α) (l : List α) (h : l ≠ []) :
    (x :: l).getLast? = l.getLast? := by
  have h2 : x :: l = [x] ++ l := by simp
  rw [h2, List.getLast?_append_of_ne_nil _ h]

theorem getLast?_some_of_ne_nil {α : Type} (l : List α) (h : l ≠ []) :
    ∃ a, l.getLast? = some a := by
  cases hq : l.getLast? with
  | none => exact absurd (by rwa [← List.getLast?_eq_none_iff]) h
  | some a => exact ⟨a, rfl⟩

theorem splitCharAux_last_ne_nil (sep : Char) (s : Str) :
    ∀ (cur : Str), s ≠ [] → s.getLast? ≠ some sep →
      (splitCharAux sep s cur).getLast? ≠ some [] := by
  induction s with
  | nil =>
    intro cur hne _
    exact absurd rfl hne
  | cons c cs ih =>
    intro cur _ hlast
    cases cs with
    | nil =>
      have hc : (c == sep) = false := by
        cases hq : c == sep with
        | true =>
          rw [beq_iff_eq] at hq
          exact absurd (by rw [hq]; rfl) hlast
        | false => rfl
      rw [splitCharAux, hc]
      simp only [Bool.false_eq_true, if_false]
      rw [splitCharAux]
      simp
    | cons c2 cs2 =>
      have hlast2 : (c2 :: cs2).getLast? ≠ some sep := by
        rw [List.getLast?_cons_cons] at hlast
        exact hlast
      rw [splitCharAux]
      cases hq : c == sep with
      | true =>
        rw [if_pos rfl]
        rw [getLast?_cons_of_ne_nil _ _ (splitCharAux_ne_nil sep (c2 :: cs2) [])]
        exact ih [] (by simp) hlast2
      | false =>
        simp only [Bool.false_eq_true, if_false]
        exact ih (c :: cur) (by simp) hlast2

theorem intercalate_getLast (ls : List Str) (x : Str) (hx : ls.getLast? = some x)
    (hxne : x ≠ []) :
    (List.intercalate ['\n'] ls).getLast? = x.getLast? := by
  induction ls with
  | nil => cases hx
  | cons a t ih =>
    cases t with
    | nil =>
      rw [List.getLast?_singleton] at hx
      rw [Option.some.inj hx, intercalate_single]
    | cons b t2 =>
      rw [List.getLast?_cons_cons] at hx
      have ihh := ih hx
      have hne : List.intercalate ['\n'] (b :: t2) ≠ [] := by
        intro hq
        rw [hq] at ihh
        obtain ⟨y, hy⟩ := getLast?_some_of_ne_nil x hxne
        rw [hy] at ihh
        cases ihh
      rw [intercalate_cons_cons, List.getLast?_append_of_ne_nil _ hne, ihh]

theorem first_line_mem (parts : List Str) (p : Str) (hp : p ∈ parts) (c : Char)
    (u0 : Str) (hpc : p = c :: u0) (hc : (c == '\n') = false) :
    ∃ u, (c :: u) ∈ splitChar '\n' (List.intercalate ['\n'] parts) := by
  induction parts with
  | nil => cases hp
  | cons a t ih =>
    rcases List.mem_cons.mp hp with rfl | hmem
    · cases t with
      | nil =>
        rw [intercalate_single, hpc]
        obtain ⟨u, ts, hu⟩ := splitChar_head_cons '\n' c u0 hc
        exact ⟨u, by rw [hu]; simp⟩
      | cons b t2 =>
        rw [intercalate_cons_cons, hpc]
        have hshape : (c :: u0) ++ ['\n'] ++ List.intercalate ['\n'] (b :: t2)
            = c :: (u0 ++ '\n' :: List.intercalate ['\n'] (b :: t2)) := by simp
        rw [hshape]
        obtain ⟨u, ts, hu⟩ := splitChar_head_cons '\n' c _ hc
        exact ⟨u, by rw [hu]; simp⟩
    · cases t with
      | nil => cases hmem
      | cons b t2 =>
        obtain ⟨u, hu⟩ := ih hmem
        rw [intercalate_cons_cons]
        have hshape : a ++ ['\n'] ++ List.intercalate ['\n'] (b :: t2)
            = a ++ '\n' :: List.intercalate ['\n'] (b :: t2) := by simp
        rw [hshape, splitChar_append]
        exact ⟨u, List.mem_append.mpr (Or.inr hu)⟩

theorem okPre_intercalate (P : List Str) (h : ∀ p ∈ P, okPre p true = true) :
    okPre (List.intercalate ['\n'] P) true = true := by
  induction P with
  | nil => rfl
  | cons a t ih =>
    cases t with
    | nil =>
      rw [intercalate_single]
      exact h a (by simp)
    | cons b t2 =>
      rw [intercalate_cons_cons]
      have hshape : a ++ ['\n'] ++ List.intercalate ['\n'] (b :: t2)
          = a ++ ('\n' :: List.intercalate ['\n'] (b :: t2)) := by simp
      rw [hshape]
      apply okPre_append
      · exact h a (by simp)
      · rw [okPre_cons_nl]
        exact ih (fun p hp => h p (List.mem_cons_of_mem _ hp))

/-! ## Preamble-field helpers -/

theorem shortOk_ne_nil {s : Str} (h : shortOk s = true) : s ≠ [] := by
  intro hq
  rw [hq] at h
  cases h

theorem shortOk_no_nl {s : Str} (h : shortOk s = true) : '\n' ∉ s := by
  rw [shortOk, Bool.and_eq_true, Bool.and_eq_true] at h
  intro hm
  have := List.all_eq_true.mp h.1.2 '\n' hm
  cases this

theorem shortOk_no_tab {s : Str} (h : shortOk s = true) : ∀ c ∈ s, c ≠ '\t' := by
  rw [shortOk, Bool.and_eq_true, Bool.and_eq_true] at h
  intro c hm hq
  have := List.all_eq_true.mp h.1.2 c hm
  rw [hq] at this
  cases this

theorem shortOk_head_nonspace {s : Str} (h : shortOk s = true) :
    s.head?.all (fun c => !isSpaceChar c) = true := by
  rw [shortOk, Bool.and_eq_true, Bool.and_eq_true] at h
  cases s with
  | nil => rfl
  | cons c cs =>
    have h2 := h.2
    rw [List.head?_cons, Option.all_some, Bool.and_eq_true] at h2
    rw [List.head?_cons, Option.all_some]
    exact h2.1

theorem shortOk_head_ne_colon {s : Str} (h : shortOk s = true) :
    s.head? ≠ some ':' := by
  rw [shortOk, Bool.and_eq_true, Bool.and_eq_true] at h
  cases s with
  | nil => simp
  | cons c cs =>
    have h2 := h.2
    rw [List.head?_cons, Option.all_some, Bool.and_eq_true] at h2
    rw [List.head?_cons]
    intro hq
    have hc := Option.some.inj hq
    rw [hc] at h2
    exact absurd h2.2 (by decide)

theorem shortOk_okPre {s : Str} (h : shortOk s = true) : okPre s true = true :=
  okPre_of_no_nl_true s (shortOk_no_nl h) (shortOk_head_ne_colon h)

theorem longOk_ne_nil {l : Str} (h : longOk l = true) : l ≠ [] := by
  intro hq
  rw [hq] at h
  cases h

theorem longOk_no_tab {l : Str} (h : longOk l = true) : ∀ c ∈ l, c ≠ '\t' := by
  rw [longOk, Bool.and_eq_true, Bool.and_eq_true, Bool.and_eq_true,
    Bool.and_eq_true] at h
  intro c hm hq
  have := List.all_eq_true.mp h.1.1.1.2 c hm
  rw [hq] at this
  cases this

theorem longOk_okPre {l : Str} (h : longOk l = true) : okPre l true = true := by
  rw [longOk, Bool.and_eq_true, Bool.and_eq_true, Bool.and_eq_true,
    Bool.and_eq_true] at h
  exact h.1.1.2

theorem longOk_head_nonspace {l : Str} (h : longOk l = true) :
    l.head?.all (fun c => !isSpaceChar c) = true := by
  rw [longOk, Bool.and_eq_true, Bool.and_eq_true, Bool.and_eq_true,
    Bool.and_eq_true] at h
  exact h.1.2

theorem longOk_last_nonspace {l : Str} (h : longOk l = true) :
    l.getLast?.all (fun c => !isSpaceChar c) = true := by
  rw [longOk, Bool.and_eq_true, Bool.and_eq_true, Bool.and_eq_true,
    Bool.and_eq_true] at h
  exact h.2

theorem longOk_last_ne_nl {l : Str} (h : longOk l = true) :
    l.getLast? ≠ some '\n' := by
  have h2 := longOk_last_nonspace h
  intro hq
  rw [hq, Option.all_some] at h2
  exact absurd h2 (by decide)

theorem longOk_head_ne_nl {l : Str} (h : longOk l = true) :
    l.head? ≠ some '\n' := by
  have h2 := longOk_head_nonspace h
  intro hq
  rw [hq, Option.all_some] at h2
  exact absurd h2 (by decide)

theorem shortOk_last_ne_nl {s : Str} (h : shortOk s = true) :
    s.getLast? ≠ some '\n' := by
  intro hq
  exact shortOk_no_nl h (mem_of_getLast?_eq hq)

theorem cleandoc_parts (s : Str) (restParts : List Str) (hs : shortOk s = true)
    (hnt : ∀ l ∈ restParts, ∀ c ∈ l, c ≠ '\t')
    (hlast : ∃ x, (s :: restParts).getLast? = some x ∧ x ≠ [] ∧ x.getLast? ≠ some '\n')
    (hzero : restParts = []
      ∨ ∃ line ∈ splitChar '\n' (List.intercalate ['\n'] restParts),
          ∃ c u, line = c :: u ∧ isSpaceChar c = false) :
    cleandoc (List.intercalate ['\n'] (s :: restParts))
      = List.intercalate ['\n'] (s :: restParts) := by
  have hsne : s ≠ [] := shortOk_ne_nil hs
  have hsnl : '\n' ∉ s := shortOk_no_nl hs
  have htabs : ∀ c ∈ List.intercalate ['\n'] (s :: restParts), c ≠ '\t' := by
    intro c hm
    rcases mem_intercalate_sep ['\n'] c (s :: restParts) hm with h1 | ⟨p, hp, hcp⟩
    · intro hq
      rw [hq] at h1
      exact absurd h1 (by decide)
    · rcases List.mem_cons.mp hp with rfl | hp2
      · exact shortOk_no_tab hs c hcp
      · exact hnt p hp2 c hcp
  cases restParts with
  | nil =>
    rw [intercalate_single] at htabs ⊢
    apply cleandoc_id_of s htabs
    · rw [splitChar_no_sep '\n' s hsnl]
      exact Or.inl rfl
    · rw [splitChar_no_sep '\n' s hsnl]
      simp only [List.head?_cons, Option.getD_some]
      exact pyLstrip_of_head s (shortOk_head_nonspace hs)
    · rw [splitChar_no_sep '\n' s hsnl]
      simp [hsne]
    · rw [splitChar_no_sep '\n' s hsnl, List.getLast?_singleton]
      simp [hsne]
  | cons q qs =>
    obtain ⟨x, hxl, hxne, hxlast⟩ := hlast
    have hxl2 : (q :: qs).getLast? = some x := by
      rw [getLast?_cons_of_ne_nil s (q :: qs) (by simp)] at hxl
      exact hxl
    have hT : (List.intercalate ['\n'] (q :: qs)).getLast? = x.getLast? :=
      intercalate_getLast (q :: qs) x hxl2 hxne
    have hTne : List.intercalate ['\n'] (q :: qs) ≠ [] := by
      intro hq
      rw [hq] at hT
      obtain ⟨y, hy⟩ := getLast?_some_of_ne_nil x hxne
      rw [hy] at hT
      cases hT
    have hTlast : (List.intercalate ['\n'] (q :: qs)).getLast? ≠ some '\n' := by
      rw [hT]
      exact hxlast
    have htext : List.intercalate ['\n'] (s :: q :: qs)
        = s ++ '\n' :: List.intercalate ['\n'] (q :: qs) := by
      rw [intercalate_cons_cons]
      simp
    have hlines : splitChar '\n' (List.intercalate ['\n'] (s :: q :: qs))
        = s :: splitChar '\n' (List.intercalate ['\n'] (q :: qs)) := by
      rw [htext, splitChar_append, splitChar_no_sep '\n' s hsnl]
      rfl
    apply cleandoc_id_of _ htabs
    · rw [hlines]
      simp only [List.tail_cons]
      rcases hzero with hq | ⟨line, hlm, c, u, hlc, hcs⟩
      · cases hq
      · refine Or.inr (marginOf_zero_of_mem _ line hlm ?_)
        rw [hlc]
        exact lineIndent_head_nonspace _ (by simp) (by
          rw [List.head?_cons, Option.all_some, hcs]
          rfl)
    · rw [hlines]
      simp only [List.head?_cons, Option.getD_some]
      exact pyLstrip_of_head s (shortOk_head_nonspace hs)
    · rw [hlines]
      simp [hsne]
    · have hSCne : splitChar '\n' (List.intercalate ['\n'] (q :: qs)) ≠ [] :=
        splitCharAux_ne_nil '\n' _ []
      rw [hlines, getLast?_cons_of_ne_nil _ _ hSCne]
      exact splitCharAux_last_ne_nil '\n' _ [] hTne hTlast

theorem startsWithNL_head (X : Str) (h : X.head? ≠ some '\n') :
    startsWithNL X = false := by
  cases X with
  | nil => rfl
  | cons c cs =>
    rw [List.head?_cons] at h
    have hc : c ≠ '\n' := fun hq => h (by rw [hq])
    rw [startsWithNL.eq_def]
    split
    · rename_i heq
      injection heq with h1 h2
      exact absurd h1 hc
    · rfl

theorem startsWithNL_nl (X : Str) : startsWithNL ('\n' :: X) = true := rfl

theorem strOrNone_some {l : Str} (h : l ≠ []) : strOrNone l = some l := by
  rw [strOrNone]
  cases l with
  | nil => exact absurd rfl h
  | cons c cs => rfl

theorem pyLstrip_longOk_append (l k : Str) (hl : longOk l = true) :
    pyLstrip (l ++ k) = l ++ k := by
  obtain ⟨c, u, rfl⟩ : ∃ c u, l = c :: u := by
    cases l with
    | nil => exact absurd rfl (longOk_ne_nil hl)
    | cons c u => exact ⟨c, u, rfl⟩
  have hc : isSpaceChar c = false := by
    have h2 := longOk_head_nonspace hl
    rw [List.head?_cons, Option.all_some, Bool.not_eq_true'] at h2
    exact h2
  rw [List.cons_append, pyLstrip_cons_not hc]

theorem pyStrip_longOk {l : Str} (hl : longOk l = true) : pyStrip l = l := by
  rw [pyStrip, pyLstrip_of_head l (longOk_head_nonspace hl),
    pyRstrip_of_last l (longOk_last_nonspace hl)]

theorem pyStrip_cons_nl (X : Str) : pyStrip ('\n' :: X) = pyStrip X := by
  rw [pyStrip, pyStrip, pyLstrip_cons_space (by decide)]

theorem pyStrip_longOk_nl {l : Str} (hl : longOk l = true) :
    pyStrip (l ++ ['\n']) = l := by
  rw [pyStrip, pyLstrip_longOk_append l ['\n'] hl,
    pyRstrip_append_space (by decide), pyRstrip_of_last l (longOk_last_nonspace hl)]

theorem pyStrip_longOk_nl2 {l : Str} (hl : longOk l = true) :
    pyStrip (l ++ ['\n', '\n']) = l := by
  have hshape : l ++ ['\n', '\n'] = (l ++ ['\n']) ++ ['\n'] := by simp
  rw [pyStrip, pyLstrip_longOk_append l ['\n', '\n'] hl, hshape,
    pyRstrip_append_space (by decide), pyRstrip_append_space (by decide),
    pyRstrip_of_last l (longOk_last_nonspace hl)]

theorem longOk_head_startsWithNL {l : Str} (hl : longOk l = true) (k : Str) :
    startsWithNL (l ++ k) = false := by
  apply startsWithNL_head
  obtain ⟨c, u, rfl⟩ : ∃ c u, l = c :: u := by
    cases l with
    | nil => exact absurd rfl (longOk_ne_nil hl)
    | cons c u => exact ⟨c, u, rfl⟩
  have hh := longOk_head_ne_nl hl
  rw [List.head?_cons] at hh
  rw [List.cons_append, List.head?_cons]
  exact hh

theorem longOk_startsWithNL {l : Str} (hl : longOk l = true) :
    startsWithNL l = false :=
  startsWithNL_head l (longOk_head_ne_nl hl)

theorem endsWithNN_nl_cons (l : Str) (k : Str) :
    endsWithNN ('\n' :: (l ++ k)) = endsWithNN (('\n' :: l) ++ k) := by
  rw [List.cons_append]

/-! ## The two `parse`-of-`compose` evaluation lemmas -/

theorem parse_no_meta (s R : Str) (P' : List Str) (hs : shortOk s = true)
    (hPjoin : List.intercalate ['\n'] (s :: P') = s ++ '\n' :: R)
    (hPok : ∀ p ∈ s :: P', okPre p true = true)
    (htabsP : ∀ p ∈ s :: P', ∀ c ∈ p, c ≠ '\t')
    (hlastP : ∃ x, (s :: P').getLast? = some x ∧ x ≠ [] ∧ x.getLast? ≠ some '\n')
    (hzero : ∃ line ∈ splitChar '\n' (List.intercalate ['\n'] P'),
        ∃ c u, line = c :: u ∧ isSpaceChar c = false) :
    parse (List.intercalate ['\n'] (s :: P'))
      = .ok ⟨strOrNone s, strOrNone (pyStrip R), startsWithNL R, endsWithNN R, []⟩ := by
  have hclean := cleandoc_parts s P' hs
    (fun l hl => htabsP l (List.mem_cons_of_mem _ hl)) hlastP (Or.inr hzero)
  have hoktext : okPre (List.intercalate ['\n'] (s :: P')) true = true :=
    okPre_intercalate _ hPok
  have hsm : splitMeta (List.intercalate ['\n'] (s :: P')) true
      = (List.intercalate ['\n'] (s :: P'), []) := splitMeta_all _ _ hoktext
  have hpre : preambleOf (List.intercalate ['\n'] (s :: P')) = s ++ '\n' :: R := by
    rw [preambleOf, hclean, hsm]
    exact hPjoin
  have hmc : metaChunkOf (List.intercalate ['\n'] (s :: P')) = [] := by
    rw [metaChunkOf, hclean, hsm]
  have hempty : (List.intercalate ['\n'] (s :: P')).isEmpty = false := by
    rw [hPjoin]
    obtain ⟨c0, s0, hs0⟩ : ∃ c0 s0, s = c0 :: s0 := by
      cases s with
      | nil => exact absurd rfl (shortOk_ne_nil hs)
      | cons c0 s0 => exact ⟨c0, s0, rfl⟩
    rw [hs0]
    rfl
  rw [parse, if_neg (by simp [hempty]), hpre, hmc,
    splitOnce_append_first '\n' s R (shortOk_no_nl hs)]
  rfl

theorem parse_with_meta (style : RenderingStyle) (s R : Str) (P' : List Str)
    (M0 : List DocstringMeta) (hs : shortOk s = true)
    (hM : ∀ r ∈ M0, metaOk r = true) (hM0 : M0 ≠ [])
    (hPjoin : List.intercalate ['\n'] (s :: P') ++ ['\n'] = s ++ '\n' :: R)
    (hPok : ∀ p ∈ s :: P', okPre p true = true)
    (htabsP : ∀ p ∈ s :: P', ∀ c ∈ p, c ≠ '\t') :
    parse (List.intercalate ['\n']
        ((s :: P') ++ M0.map (metaText style defaultIndent)))
      = .ok ⟨strOrNone s, strOrNone (pyStrip R), startsWithNL R, endsWithNN R,
          M0.map normMeta⟩ := by
  obtain ⟨m0, ms, rfl⟩ : ∃ m0 ms, M0 = m0 :: ms := by
    cases M0 with
    | nil => exact absurd rfl hM0
    | cons m0 ms => exact ⟨m0, ms, rfl⟩
  have hm0 := hM m0 (by simp)
  obtain ⟨w0, hw0, hw0ok⟩ := metaText_okPre style m0 hm0
  have hmmne : (m0 :: ms).map (metaText style defaultIndent) ≠ [] := by simp
  have hPne : (s :: P') ≠ [] := by simp
  have htext : List.intercalate ['\n']
        ((s :: P') ++ (m0 :: ms).map (metaText style defaultIndent))
      = (List.intercalate ['\n'] (s :: P') ++ ['\n'])
        ++ List.intercalate ['\n'] ((m0 :: ms).map (metaText style defaultIndent)) := by
    rw [intercalate_append_parts _ _ hPne hmmne]
    simp
  have hlastM : ∃ x, ((s :: P') ++ (m0 :: ms).map (metaText style defaultIndent)).getLast?
      = some x ∧ x ≠ [] ∧ x.getLast? ≠ some '\n' := by
    obtain ⟨mlast, hml⟩ := getLast?_some_of_ne_nil (m0 :: ms) (by simp)
    have hmlmem : mlast ∈ m0 :: ms := mem_of_getLast?_eq hml
    refine ⟨metaText style defaultIndent mlast, ?_, ?_, ?_⟩
    · rw [List.getLast?_append_of_ne_nil _ hmmne, List.getLast?_map, hml]
      rfl
    · obtain ⟨w1, hw1, _⟩ := metaText_okPre style mlast (hM mlast hmlmem)
      rw [hw1]
      simp
    · exact metaText_last_ne_nl style mlast (hM mlast hmlmem)
  have hform : (s :: P') ++ (m0 :: ms).map (metaText style defaultIndent)
      = s :: (P' ++ (m0 :: ms).map (metaText style defaultIndent)) := rfl
  have hclean : cleandoc (List.intercalate ['\n']
        ((s :: P') ++ (m0 :: ms).map (metaText style defaultIndent)))
      = List.intercalate ['\n']
          ((s :: P') ++ (m0 :: ms).map (metaText style defaultIndent)) := by
    rw [hform]
    apply cleandoc_parts s _ hs
    · intro l hl
      rcases List.mem_append.mp hl with h1 | h2
      · exact htabsP l (List.mem_cons_of_mem _ h1)
      · obtain ⟨r, hrm, hrl⟩ := List.mem_map.mp h2
        subst hrl
        exact metaText_no_tab style r (hM r hrm)
    · rw [← hform]
      exact hlastM
    · refine Or.inr ?_
      obtain ⟨u, hu⟩ := first_line_mem
        (P' ++ (m0 :: ms).map (metaText style defaultIndent))
        (metaText style defaultIndent m0) (by simp) ':' w0 hw0 (by decide)
      exact ⟨':' :: u, hu, ':', u, rfl, by decide⟩
  have hokpre : okPre (List.intercalate ['\n'] (s :: P') ++ ['\n']) true = true := by
    apply okPre_append
    · exact okPre_intercalate _ hPok
    · exact okPre_nl_single _
  have hflagpre : flagAfter (List.intercalate ['\n'] (s :: P') ++ ['\n']) true
      = true := by
    rw [flagAfter_append]
    exact flagAfter_nl_single _
  have hpost : (List.intercalate ['\n']
        ((m0 :: ms).map (metaText style defaultIndent))).head? = some ':' := by
    have hmap : (m0 :: ms).map (metaText style defaultIndent)
        = metaText style defaultIndent m0 :: ms.map (metaText style defaultIndent) :=
      rfl
    rw [hmap, intercalate_head_flat, hw0]
    rfl
  have hsm : splitMeta (List.intercalate ['\n']
        ((s :: P') ++ (m0 :: ms).map (metaText style defaultIndent))) true
      = (List.intercalate ['\n'] (s :: P') ++ ['\n'],
         List.intercalate ['\n'] ((m0 :: ms).map (metaText style defaultIndent))) := by
    rw [htext]
    exact splitMeta_split _ _ true hokpre hflagpre hpost
  have hpre : preambleOf (List.intercalate ['\n']
        ((s :: P') ++ (m0 :: ms).map (metaText style defaultIndent)))
      = s ++ '\n' :: R := by
    rw [preambleOf, hclean, hsm]
    exact hPjoin
  have hmc : metaChunkOf (List.intercalate ['\n']
        ((s :: P') ++ (m0 :: ms).map (metaText style defaultIndent)))
      = List.intercalate ['\n'] ((m0 :: ms).map (metaText style defaultIndent)) := by
    rw [metaChunkOf, hclean, hsm]
  have hpb : processBlocks (splitBlocks (List.intercalate ['\n']
        ((m0 :: ms).map (metaText style defaultIndent))))
      = .ok ((m0 :: ms).map normMeta) := by
    rw [splitBlocks_metaTexts style _ hM, processBlocks_appendNl style _ hM]
  have hempty : (List.intercalate ['\n']
        ((s :: P') ++ (m0 :: ms).map (metaText style defaultIndent))).isEmpty
      = false := by
    rw [hform, intercalate_head_flat]
    obtain ⟨c0, s0, hs0⟩ : ∃ c0 s0, s = c0 :: s0 := by
      cases s with
      | nil => exact absurd rfl (shortOk_ne_nil hs)
      | cons c0 s0 => exact ⟨c0, s0, rfl⟩
    rw [hs0]
    rfl
  rw [parse, if_neg (by intro hq; rw [hempty] at hq; cases hq), hpre, hmc, hpb,
    splitOnce_append_first '\n' s R (shortOk_no_nl hs)]

theorem long_line_mem (l : Str) (hl : longOk l = true) (parts : List Str)
    (hmem : l ∈ parts) :
    ∃ line ∈ splitChar '\n' (List.intercalate ['\n'] parts),
      ∃ c u, line = c :: u ∧ isSpaceChar c = false := by
  obtain ⟨c, u, hlcu⟩ : ∃ c u, l = c :: u := by
    cases hq : l with
    | nil => exact absurd hq (longOk_ne_nil hl)
    | cons c u => exact ⟨c, u, rfl⟩
  have hc : isSpaceChar c = false := by
    have h2 := longOk_head_nonspace hl
    rw [hlcu, List.head?_cons, Option.all_some, Bool.not_eq_true'] at h2
    exact h2
  have hcnl : (c == '\n') = false := by
    cases hq : c == '\n' with
    | true =>
      rw [beq_iff_eq] at hq
      rw [hq] at hc
      exact absurd hc (by decide)
    | false => rfl
  obtain ⟨u2, hu2⟩ := first_line_mem parts l hmem c u hlcu hcnl
  exact ⟨c :: u2, hu2, c, u2, rfl, hc⟩

theorem parse_compose_norm (d : Docstring) (hwf : wfDoc d = true)
    (style : RenderingStyle) :
    parse (compose d style defaultIndent) = .ok (normDoc d) := by
  obtain ⟨sd, lo, b1, b2, M⟩ := d
  simp only [wfDoc, Bool.and_eq_true] at hwf
  cases sd with
  | none => exact absurd hwf.1.1.1.1 (by decide)
  | some s =>
    have hs : shortOk s = true := hwf.1.1.1.1
    have hsne := shortOk_ne_nil hs
    have hse : s.isEmpty = false := by
      cases s with
      | nil => exact absurd rfl hsne
      | cons c cs => rfl
    have hM : ∀ r ∈ M, metaOk r = true := fun r hr => List.all_eq_true.mp hwf.2 r hr
    cases M with
    | nil =>
      have hb2f : b2 = false := by
        have h2 := hwf.1.2
        cases b2 with
        | false => rfl
        | true => exact absurd h2 (by decide)
      subst hb2f
      cases lo with
      | none =>
        have hb1f : b1 = false := by
          have h1 := hwf.1.1.2
          cases b1 with
          | false => rfl
          | true => exact absurd h1 (by decide)
        subst hb1f
        have hcomp : compose ⟨some s, none, false, false, []⟩ style defaultIndent
            = s := by
          rw [compose]
          simp only [truthyS, hse, Bool.not_false, if_true, Option.getD_some,
            Bool.false_eq_true, if_false, List.map_nil, List.append_nil,
            List.nil_append]
          exact intercalate_single ['\n'] s
        rw [hcomp]
        have hclean : cleandoc s = s := by
          have h3 := cleandoc_parts s [] hs (by intro l hl; cases hl)
            ⟨s, by rw [List.getLast?_singleton], hsne, shortOk_last_ne_nl hs⟩
            (Or.inl rfl)
          rw [intercalate_single] at h3
          exact h3
        have hsm : splitMeta s true = (s, []) :=
          splitMeta_all s true (shortOk_okPre hs)
        have hpre : preambleOf s = s := by rw [preambleOf, hclean, hsm]
        have hmc : metaChunkOf s = [] := by rw [metaChunkOf, hclean, hsm]
        rw [parse, if_neg (by intro hq; rw [hse] at hq; cases hq), hpre, hmc,
          splitOnce_no_sep '\n' s (shortOk_no_nl hs), strOrNone_some hsne]
        rfl
      | some l =>
        have hl : longOk l = true := hwf.1.1.1.2
        have hle : l.isEmpty = false := by
          cases l with
          | nil => exact absurd rfl (longOk_ne_nil hl)
          | cons c cs => rfl
        cases b1 with
        | false =>
          have hcomp : compose ⟨some s, some l, false, false, []⟩ style defaultIndent
              = List.intercalate ['\n'] (s :: [l]) := by
            rw [compose]
            simp only [truthyS, hse, hle, Bool.not_false, if_true, Option.getD_some,
              Bool.false_eq_true, if_false, List.map_nil, List.append_nil,
              List.nil_append]
            rfl
          rw [hcomp, parse_no_meta s l [l] hs
            (by rw [intercalate_cons_cons, intercalate_single]; simp)
            (by
              intro p hp
              simp at hp
              rcases hp with rfl | rfl
              · exact shortOk_okPre hs
              · exact longOk_okPre hl)
            (by
              intro p hp
              simp at hp
              rcases hp with rfl | rfl
              · exact shortOk_no_tab hs
              · exact longOk_no_tab hl)
            ⟨l, by rw [List.getLast?_cons_cons, List.getLast?_singleton],
              longOk_ne_nil hl, longOk_last_ne_nl hl⟩
            (long_line_mem l hl [l] (by simp))]
          rw [strOrNone_some hsne, pyStrip_longOk hl,
            strOrNone_some (longOk_ne_nil hl), longOk_startsWithNL hl,
            endsWithNN_of_last l (longOk_last_ne_nl hl)]
          rfl
        | true =>
          have hx : ('\n' :: l).getLast? ≠ some '\n' := by
            rw [getLast?_cons_of_ne_nil _ _ (longOk_ne_nil hl)]
            exact longOk_last_ne_nl hl
          have hcomp : compose ⟨some s, some l, true, false, []⟩ style defaultIndent
              = List.intercalate ['\n'] (s :: [[], l]) := by
            rw [compose]
            simp only [truthyS, hse, hle, Bool.not_false, if_true, Option.getD_some,
              Bool.false_eq_true, if_false, List.map_nil, List.append_nil,
              List.nil_append]
            rfl
          rw [hcomp, parse_no_meta s ('\n' :: l) [[], l] hs
            (by rw [intercalate_cons_cons, intercalate_cons_cons, intercalate_single]
                simp)
            (by
              intro p hp
              simp at hp
              rcases hp with rfl | rfl | rfl
              · exact shortOk_okPre hs
              · rfl
              · exact longOk_okPre hl)
            (by
              intro p hp
              simp at hp
              rcases hp with rfl | rfl | rfl
              · exact shortOk_no_tab hs
              · intro c hc
                cases hc
              · exact longOk_no_tab hl)
            ⟨l, by rw [List.getLast?_cons_cons, List.getLast?_cons_cons,
                List.getLast?_singleton],
              longOk_ne_nil hl, longOk_last_ne_nl hl⟩
            (long_line_mem l hl [[], l] (by simp))]
          rw [strOrNone_some hsne, pyStrip_cons_nl, pyStrip_longOk hl,
            strOrNone_some (longOk_ne_nil hl), startsWithNL_nl,
            endsWithNN_of_last ('\n' :: l) hx]
          rfl
    | cons m0 ms =>
      cases lo with
      | none =>
        cases b1 with
        | false =>
          cases b2 with
          | false =>
            have hcomp : compose ⟨some s, none, false, false, m0 :: ms⟩ style
                  defaultIndent
                = List.intercalate ['\n']
                    ((s :: []) ++ (m0 :: ms).map (metaText style defaultIndent)) := by
              rw [compose]
              simp only [truthyS, hse, Bool.not_false, if_true, Option.getD_some,
                Bool.false_eq_true, if_false, List.nil_append]
              rfl
            rw [hcomp, parse_with_meta style s [] [] (m0 :: ms) hs hM (by simp)
              (by rw [intercalate_single])
              (by
                intro p hp
                simp at hp
                rcases hp with rfl
                exact shortOk_okPre hs)
              (by
                intro p hp
                simp at hp
                rcases hp with rfl
                exact shortOk_no_tab hs)]
            rw [strOrNone_some hsne]
            rfl
          | true =>
            have hcomp : compose ⟨some s, none, false, true, m0 :: ms⟩ style
                  defaultIndent
                = List.intercalate ['\n']
                    ((s :: [[]]) ++ (m0 :: ms).map (metaText style defaultIndent)) := by
              rw [compose]
              simp only [truthyS, hse, Bool.not_false, if_true, Option.getD_some,
                Bool.false_eq_true, if_false, List.nil_append]
              rfl
            rw [hcomp, parse_with_meta style s ['\n'] [[]] (m0 :: ms) hs hM (by simp)
              (by rw [intercalate_cons_cons, intercalate_single]; simp)
              (by
                intro p hp
                simp at hp
                rcases hp with rfl | rfl
                · exact shortOk_okPre hs
                · rfl)
              (by
                intro p hp
                simp at hp
                rcases hp with rfl | rfl
                · exact shortOk_no_tab hs
                · intro c hc
                  cases hc)]
            rw [strOrNone_some hsne]
            rfl
        | true =>
          cases b2 with
          | false =>
            have hcomp : compose ⟨some s, none, true, false, m0 :: ms⟩ style
                  defaultIndent
                = List.intercalate ['\n']
                    ((s :: [[]]) ++ (m0 :: ms).map (metaText style defaultIndent)) := by
              rw [compose]
              simp only [truthyS, hse, Bool.not_false, if_true, Option.getD_some,
                Bool.false_eq_true, if_false, List.nil_append]
              rfl
            rw [hcomp, parse_with_meta style s ['\n'] [[]] (m0 :: ms) hs hM (by simp)
              (by rw [intercalate_cons_cons, intercalate_single]; simp)
              (by
                intro p hp
                simp at hp
                rcases hp with rfl | rfl
                · exact shortOk_okPre hs
                · rfl)
              (by
                intro p hp
                simp at hp
                rcases hp with rfl | rfl
                · exact shortOk_no_tab hs
                · intro c hc
                  cases hc)]
            rw [strOrNone_some hsne]
            rfl
          | true =>
            have hcomp : compose ⟨some s, none, true, true, m0 :: ms⟩ style
                  defaultIndent
                = List.intercalate ['\n']
                    ((s :: [[], []]) ++ (m0 :: ms).map (metaText style defaultIndent)) := by
              rw [compose]
              simp only [truthyS, hse, Bool.not_false, if_true, Option.getD_some,
                Bool.false_eq_true, if_false, List.nil_append]
              rfl
            rw [hcomp, parse_with_meta style s ['\n', '\n'] [[], []] (m0 :: ms) hs hM
              (by simp)
              (by rw [intercalate_cons_cons, intercalate_cons_cons, intercalate_single]
                  simp)
              (by
                intro p hp
                simp at hp
                rcases hp with rfl | rfl
                · exact shortOk_okPre hs
                · rfl)
              (by
                intro p hp
                simp at hp
                rcases hp with rfl | rfl
                · exact shortOk_no_tab hs
                · intro c hc
                  cases hc)]
            rw [strOrNone_some hsne]
            rfl
      | some l =>
        have hl : longOk l = true := hwf.1.1.1.2
        have hle : l.isEmpty = false := by
          cases l with
          | nil => exact absurd rfl (longOk_ne_nil hl)
          | cons c cs => rfl
        cases b1 with
        | false =>
          cases b2 with
          | false =>
            have hcomp : compose ⟨some s, some l, false, false, m0 :: ms⟩ style
                  defaultIndent
                = List.intercalate ['\n']
                    ((s :: [l]) ++ (m0 :: ms).map (metaText style defaultIndent)) := by
              rw [compose]
              simp only [truthyS, hse, hle, Bool.not_false, if_true, Option.getD_some,
                Bool.false_eq_true, if_false, List.nil_append]
              rfl
            rw [hcomp, parse_with_meta style s (l ++ ['\n']) [l] (m0 :: ms) hs hM
              (by simp)
              (by rw [intercalate_cons_cons, intercalate_single]; simp)
              (by
                intro p hp
                simp at hp
                rcases hp with rfl | rfl
                · exact shortOk_okPre hs
                · exact longOk_okPre hl)
              (by
                intro p hp
                simp at hp
                rcases hp with rfl | rfl
                · exact shortOk_no_tab hs
                · exact longOk_no_tab hl)]
            rw [strOrNone_some hsne, pyStrip_longOk_nl hl,
              strOrNone_some (longOk_ne_nil hl), longOk_head_startsWithNL hl ['\n'],
              endsWithNN_append_one l (longOk_last_ne_nl hl)]
            rfl
          | true =>
            have hcomp : compose ⟨some s, some l, false, true, m0 :: ms⟩ style
                  defaultIndent
                = List.intercalate ['\n']
                    ((s :: [l, []]) ++ (m0 :: ms).map (metaText style defaultIndent)) := by
              rw [compose]
              simp only [truthyS, hse, hle, Bool.not_false, if_true, Option.getD_some,
                Bool.false_eq_true, if_false, List.nil_append]
              rfl
            rw [hcomp, parse_with_meta style s (l ++ ['\n', '\n']) [l, []] (m0 :: ms)
              hs hM (by simp)
              (by rw [intercalate_cons_cons, intercalate_cons_cons, intercalate_single]
                  simp)
              (by
                intro p hp
                simp at hp
                rcases hp with rfl | rfl | rfl
                · exact shortOk_okPre hs
                · exact longOk_okPre hl
                · rfl)
              (by
                intro p hp
                simp at hp
                rcases hp with rfl | rfl | rfl
                · exact shortOk_no_tab hs
                · exact longOk_no_tab hl
                · intro c hc
                  cases hc)]
            rw [strOrNone_some hsne, pyStrip_longOk_nl2 hl,
              strOrNone_some (longOk_ne_nil hl),
              longOk_head_startsWithNL hl ['\n', '\n'], endsWithNN_append_two l]
            rfl
        | true =>
          have hx : ('\n' :: l).getLast? ≠ some '\n' := by
            rw [getLast?_cons_of_ne_nil _ _ (longOk_ne_nil hl)]
            exact longOk_last_ne_nl hl
          cases b2 with
          | false =>
            have hcomp : compose ⟨some s, some l, true, false, m0 :: ms⟩ style
                  defaultIndent
                = List.intercalate ['\n']
                    ((s :: [[], l]) ++ (m0 :: ms).map (metaText style defaultIndent)) := by
              rw [compose]
              simp only [truthyS, hse, hle, Bool.not_false, if_true, Option.getD_some,
                Bool.false_eq_true, if_false, List.nil_append]
              rfl
            rw [hcomp, parse_with_meta style s ('\n' :: (l ++ ['\n'])) [[], l]
              (m0 :: ms) hs hM (by simp)
              (by rw [intercalate_cons_cons, intercalate_cons_cons, intercalate_single]
                  simp)
              (by
                intro p hp
                simp at hp
                rcases hp with rfl | rfl | rfl
                · exact shortOk_okPre hs
                · rfl
                · exact longOk_okPre hl)
              (by
                intro p hp
                simp at hp
                rcases hp with rfl | rfl | rfl
                · exact shortOk_no_tab hs
                · intro c hc
                  cases hc
                · exact longOk_no_tab hl)]
            rw [strOrNone_some hsne, pyStrip_cons_nl, pyStrip_longOk_nl hl,
              strOrNone_some (longOk_ne_nil hl), startsWithNL_nl, endsWithNN_nl_cons,
              endsWithNN_append_one ('\n' :: l) hx]
            rfl
          | true =>
            have hcomp : compose ⟨some s, some l, true, true, m0 :: ms⟩ style
                  defaultIndent
                = List.intercalate ['\n']
                    ((s :: [[], l, []]) ++ (m0 :: ms).map (metaText style defaultIndent)) := by
              rw [compose]
              simp only [truthyS, hse, hle, Bool.not_false, if_true, Option.getD_some,
                Bool.false_eq_true, if_false, List.nil_append]
              rfl
            rw [hcomp, parse_with_meta style s ('\n' :: (l ++ ['\n', '\n']))
              [[], l, []] (m0 :: ms) hs hM (by simp)
              (by rw [intercalate_cons_cons, intercalate_cons_cons,
                    intercalate_cons_cons, intercalate_single]
                  simp)
              (by
                intro p hp
                simp at hp
                rcases hp with rfl | rfl | rfl | rfl
                · exact shortOk_okPre hs
                · rfl
                · exact longOk_okPre hl
                · rfl)
              (by
                intro p hp
                simp at hp
                rcases hp with rfl | rfl | rfl | rfl
                · exact shortOk_no_tab hs
                · intro c hc
                  cases hc
                · exact longOk_no_tab hl
                · intro c hc
                  cases hc)]
            rw [strOrNone_some hsne, pyStrip_cons_nl, pyStrip_longOk_nl2 hl,
              strOrNone_some (longOk_ne_nil hl), startsWithNL_nl, endsWithNN_nl_cons,
              endsWithNN_append_two ('\n' :: l)]
            rfl

/-! ## Normal form and idempotence of `compose` -/

theorem metaText_normMeta (style : RenderingStyle) (ind : Str) (r : DocstringMeta) :
    metaText style ind (normMeta r) = metaText style ind r := by
  cases r <;> rfl

theorem normMeta_args (r : DocstringMeta) : (normMeta r).args = r.args := by
  cases r <;> rfl

theorem normMeta_description (r : DocstringMeta) :
    (normMeta r).description = r.description := by
  cases r <;> rfl

theorem compose_normDoc (d : Docstring) (hwf : wfDoc d = true)
    (style : RenderingStyle) (ind : Str) :
    compose (normDoc d) style ind = compose d style ind := by
  obtain ⟨sd, lo, b1, b2, M⟩ := d
  have hmap : (M.map normMeta).map (metaText style ind) = M.map (metaText style ind) := by
    rw [List.map_map]
    exact List.map_congr_left (fun r _ => metaText_normMeta style ind r)
  cases lo with
  | some l =>
    show compose (⟨sd, some l, b1, b2, M.map normMeta⟩ : Docstring) style ind
      = compose ⟨sd, some l, b1, b2, M⟩ style ind
    rw [compose, compose, hmap]
  | none =>
    simp only [wfDoc, Bool.and_eq_true] at hwf
    cases sd with
    | none => exact absurd hwf.1.1.1.1 (by decide)
    | some s =>
      have hs : shortOk s = true := hwf.1.1.1.1
      have hse : s.isEmpty = false := by
        cases s with
        | nil => exact absurd rfl (shortOk_ne_nil hs)
        | cons c cs => rfl
      cases b1 with
      | false =>
        cases b2 with
        | false =>
          show compose (⟨some s, none, false, false, M.map normMeta⟩ : Docstring)
              style ind
            = compose ⟨some s, none, false, false, M⟩ style ind
          rw [compose, compose, hmap]
        | true =>
          show compose (⟨some s, none, true, false, M.map normMeta⟩ : Docstring)
              style ind
            = compose ⟨some s, none, false, true, M⟩ style ind
          have hA : compose (⟨some s, none, true, false, M.map normMeta⟩ : Docstring)
              style ind
              = List.intercalate ['\n']
                  ((s :: [[]]) ++ (M.map normMeta).map (metaText style ind)) := by
            rw [compose]
            simp only [truthyS, hse, Bool.not_false, if_true, Option.getD_some,
              Bool.false_eq_true, if_false, List.nil_append]
            rfl
          have hB : compose (⟨some s, none, false, true, M⟩ : Docstring) style ind
              = List.intercalate ['\n']
                  ((s :: [[]]) ++ M.map (metaText style ind)) := by
            rw [compose]
            simp only [truthyS, hse, Bool.not_false, if_true, Option.getD_some,
              Bool.false_eq_true, if_false, List.nil_append]
            rfl
          rw [hA, hB, hmap]
      | true =>
        cases b2 with
        | false =>
          show compose (⟨some s, none, true, false, M.map normMeta⟩ : Docstring)
              style ind
            = compose ⟨some s, none, true, false, M⟩ style ind
          rw [compose, compose, hmap]
        | true =>
          show compose (⟨some s, none, true, true, M.map normMeta⟩ : Docstring)
              style ind
            = compose ⟨some s, none, true, true, M⟩ style ind
          rw [compose, compose, hmap]

/-! ## Claims C1 and C2 -/

/-- **C1** (counterexample): the parse-producible, spec-well-formed document
with the single generic record `(["note"], "a\n:b: c")` does not round-trip:
composing renders the description's second line at column 0, so re-parsing
splits it into two records with raw token lists `["note"]` and `["b"]`. -/
theorem C1_counterexample :
    parse "S\n:note: a\n  :b: c".data
      = .ok ⟨some "S".data, none, false, false,
          [.generic ["note".data] "a\n:b: c".data]⟩
    ∧ specWellFormed ⟨some "S".data, none, false, false,
        [.generic ["note".data] "a\n:b: c".data]⟩ = true
    ∧ (parse (compose ⟨some "S".data, none, false, false,
          [.generic ["note".data] "a\n:b: c".data]⟩ .COMPACT defaultIndent)).map
        (fun doc => doc.meta.map DocstringMeta.args)
      ≠ .ok [["note".data]] := by
  refine ⟨by decide, by decide, by decide⟩

/-- **C1** (amended): for every document whose records satisfy the stronger
well-formedness `wfDoc` (tokens consistent with the structured fields,
single-line colon-free descriptions, a present short description) and every
rendering style, re-parsing the composition restores every record's raw
token list and description exactly, record for record and in order. -/
theorem C1_roundtrip (d : Docstring) (h : wfDoc d = true)
    (style : RenderingStyle) :
    (parse (compose d style defaultIndent)).map
        (fun doc => (doc.meta.map DocstringMeta.args,
          doc.meta.map DocstringMeta.description))
      = .ok (d.meta.map DocstringMeta.args,
          d.meta.map DocstringMeta.description) := by
  rw [parse_compose_norm d h style]
  simp only [Except.map]
  have h1 : (d.meta.map normMeta).map DocstringMeta.args
      = d.meta.map DocstringMeta.args := by
    rw [List.map_map]
    exact List.map_congr_left (fun r _ => normMeta_args r)
  have h2 : (d.meta.map normMeta).map DocstringMeta.description
      = d.meta.map DocstringMeta.description := by
    rw [List.map_map]
    exact List.map_congr_left (fun r _ => normMeta_description r)
  simp only [normDoc]
  rw [h1, h2]

/-- **C1** witness: the round-trip theorem applied to a concrete well-formed
document with one generic record. -/
theorem C1_roundtrip_witness :
    wfDoc ⟨some "S".data, none, false, false,
        [.generic ["note".data] "n".data]⟩ = true
    ∧ (parse (compose ⟨some "S".data, none, false, false,
          [.generic ["note".data] "n".data]⟩ .COMPACT defaultIndent)).map
        (fun doc => (doc.meta.map DocstringMeta.args,
          doc.meta.map DocstringMeta.description))
      = .ok ([["note".data]], ["n".data]) :=
  ⟨by decide, C1_roundtrip ⟨some "S".data, none, false, false,
      [.generic ["note".data] "n".data]⟩ (by decide) .COMPACT⟩

/-- **C2** (counterexample): `":deprecated: 1.2 2.3 y"` parses without error,
but composing is not idempotent after one round trip: the re-parsed document
extracts `"2.3"` as a fresh version from the composed description, so the
second composition drops it. -/
theorem C2_counterexample :
    (parse ":deprecated: 1.2 2.3 y".data).map
        (fun doc => compose doc .COMPACT defaultIndent)
      = .ok ":deprecated: 2.3 y".data
    ∧ (parse ":deprecated: 2.3 y".data).map
        (fun doc => compose doc .COMPACT defaultIndent)
      = .ok ":deprecated: y".data
    ∧ ":deprecated: 2.3 y".data ≠ ":deprecated: y".data := by
  refine ⟨by decide, by decide, by decide⟩

/-- **C2** (amended): for every text whose parse succeeds with a document
satisfying `wfDoc`, composing is idempotent in the COMPACT style:
`compose(parse(compose(parse(text))))` equals `compose(parse(text))`. -/
theorem C2_idempotent (text : Str) (d : Docstring) (hp : parse text = .ok d)
    (hwf : wfDoc d = true) :
    (parse (compose d .COMPACT defaultIndent)).map
        (fun d2 => compose d2 .COMPACT defaultIndent)
      = .ok (compose d .COMPACT defaultIndent) := by
  rw [parse_compose_norm d hwf .COMPACT]
  simp only [Except.map]
  rw [compose_normDoc d hwf .COMPACT defaultIndent]

/-- **C2** witness: idempotence at the concrete text `"S\n:param T x: ok"`. -/
theorem C2_idempotent_witness :
    parse "S\n:param T x: ok".data
      = .ok ⟨some "S".data, none, false, false,
          [.param ["param".data, "T".data, "x".data] "ok".data "x".data
            (some "T".data) (some false) none]⟩
    ∧ wfDoc ⟨some "S".data, none, false, false,
        [.param ["param".data, "T".data, "x".data] "ok".data "x".data
          (some "T".data) (some false) none]⟩ = true
    ∧ (parse (compose ⟨some "S".data, none, false, false,
          [.param ["param".data, "T".data, "x".data] "ok".data "x".data
            (some "T".data) (some false) none]⟩ .COMPACT defaultIndent)).map
        (fun d2 => compose d2 .COMPACT defaultIndent)
      = .ok (compose ⟨some "S".data, none, false, false,
          [.param ["param".data, "T".data, "x".data] "ok".data "x".data
            (some "T".data) (some false) none]⟩ .COMPACT defaultIndent) :=
  ⟨by decide, by decide,
    C2_idempotent "S\n:param T x: ok".data
      ⟨some "S".data, none, false, false,
        [.param ["param".data, "T".data, "x".data] "ok".data "x".data
          (some "T".data) (some false) none]⟩ (by decide) (by decide)⟩
